import Mathlib

set_option maxHeartbeats 1000000
set_option maxRecDepth 10000

namespace CntxtCS

/-- Opening brace character. -/
def obr : Char := '\x7b'

/-- Closing brace character. -/
def cbr : Char := '\x7d'

/-- ASCII word character, the re module character class backslash-w. -/
def isWord (c : Char) : Bool := c.isAlphanum || c = '_'

/-- Character class of a bracketed type token: word characters plus angle and square brackets. -/
def isTypeChar (c : Char) : Bool := isWord c || c = '<' || c = '>' || c = '[' || c = ']'

/-- Python whitespace character class backslash-s. -/
def isPySpace (c : Char) : Bool :=
  c = ' ' || c = '\t' || c = '\n' || c = '\r' || c = '\x0b' || c = '\x0c'

/-- Python str.strip applied to a character list. -/
def pyStrip (s : List Char) : List Char :=
  ((s.dropWhile isPySpace).reverse.dropWhile isPySpace).reverse

/-- Match a literal prefix and return the remaining input, or fail. -/
def dropLit : List Char → List Char → Option (List Char)
  | [], s => some s
  | _ :: _, [] => none
  | l :: ls, c :: cs => if c = l then dropLit ls cs else none

/-- Greedy one-or-more run of characters satisfying p, returning the run and the rest. -/
def plusOf (p : Char → Bool) (s : List Char) : Option (List Char × List Char) :=
  if s.takeWhile p = [] then none else some (s.takeWhile p, s.dropWhile p)

/-- Greedy one-or-more whitespace run, returning the rest. -/
def spacesPlus (s : List Char) : Option (List Char) :=
  (plusOf isPySpace s).map (fun r => r.2)

/-- Greedy zero-or-more whitespace run. -/
def leadTrim (s : List Char) : List Char := s.dropWhile isPySpace

/-- Parameter descriptor produced by the parameter parser.  Optional fields model
optional dictionary keys; name is always set. -/
structure ParamD where
  definition : String
  modifier : Option String := none
  type_ : Option String := none
  name : String := ""
  default : Option String := none
deriving DecidableEq

/-- Continuation of the modifier pattern after the leading modifier keyword:
one-or-more spaces, a bracketed type token, one-or-more spaces, a word. -/
def matchAfterMod (s : List Char) : Option (List Char × List Char) :=
  (spacesPlus s).bind (fun s1 =>
    (plusOf isTypeChar s1).bind (fun ts =>
      (spacesPlus ts.2).bind (fun s3 =>
        (plusOf isWord s3).map (fun ns => (ts.1, ns.1)))))

/-- Ordered alternation over the modifier keywords with full continuation backtracking. -/
def goMod : List (List Char) → List Char → Option (List Char × List Char × List Char)
  | [], _ => none
  | m :: ms, p =>
    match dropLit m p with
    | some r =>
      match matchAfterMod r with
      | some (t, n) => some (m, t, n)
      | none => goMod ms p
    | none => goMod ms p

/-- The parameter modifier keywords in the order the pattern alternation tries them. -/
def modAlts : List (List Char) := [("ref".data), ("out".data), ("in".data), ("params".data)]

/-- Anchored match of the pattern modifier, type, name with modifier drawn from ref, out, in, params. -/
def modifier_match (p : List Char) : Option (List Char × List Char × List Char) :=
  goMod modAlts p

/-- Anchored match of the pattern type, spaces, name. -/
def type_name_match (p : List Char) : Option (List Char × List Char) :=
  (plusOf isTypeChar p).bind (fun ts =>
    (spacesPlus ts.2).bind (fun s2 =>
      (plusOf isWord s2).map (fun ns => (ts.1, ns.1))))

/-- The tail of the default pattern after the equals sign: optional spaces then one
or more non-newline characters, with the backtracking behaviour of a greedy
space run followed by a greedy dot-plus group. -/
def dotPlusTail (s : List Char) : Option (List Char) :=
  let rest := s.dropWhile isPySpace
  if rest ≠ [] then some (rest.takeWhile (fun c => !(c = '\n')))
  else
    match (s.takeWhile isPySpace).reverse.find? (fun c => !(c = '\n')) with
    | some c => some [c]
    | none => none

/-- Anchored match of the default pattern: type token, spaces, word, optional
spaces, equals sign, then the expression text; returns the expression group. -/
def default_match (p : List Char) : Option (List Char) :=
  (plusOf isTypeChar p).bind (fun ts =>
    (spacesPlus ts.2).bind (fun s2 =>
      (plusOf isWord s2).bind (fun ns =>
        (dropLit [('=')] (leadTrim ns.2)).bind (fun s4 => dotPlusTail s4))))

/-- Parse a single parameter segment with its type and default value. -/
def _parse_single_parameter (p : List Char) : ParamD :=
  let base : ParamD :=
    match modifier_match p with
    | some (m, t, n) =>
      { definition := String.mk p, modifier := some (String.mk m),
        type_ := some (String.mk t), name := String.mk n }
    | none =>
      match type_name_match p with
      | some (t, n) =>
        { definition := String.mk p, type_ := some (String.mk t), name := String.mk n }
      | none => { definition := String.mk p, name := String.mk (pyStrip p) }
  match default_match p with
  | some d => { base with default := some (String.mk (pyStrip d)) }
  | none => base

/-- Opening bracket characters tracked by the parameter splitter. -/
def isOpener (c : Char) : Bool := c = '<' || c = '(' || c = '[' || c = obr

/-- Closing bracket characters tracked by the parameter splitter. -/
def isCloser (c : Char) : Bool := c = '>' || c = ')' || c = ']' || c = cbr

/-- Flush of the accumulated segment: parse it when nonempty after stripping. -/
def ppFlush (current : List Char) : List ParamD :=
  if pyStrip current = [] then [] else [_parse_single_parameter (pyStrip current)]

/-- The character loop of the parameter parser: depth counter, accumulated segment,
remaining input. -/
def ppGo : Int → List Char → List Char → List ParamD
  | _, current, [] => ppFlush current
  | depth, current, c :: rest =>
    if isOpener c then ppGo (depth + 1) (current ++ [c]) rest
    else if isCloser c then ppGo (depth - 1) (current ++ [c]) rest
    else if c = ',' ∧ depth = 0 then ppFlush current ++ ppGo depth [] rest
    else ppGo depth (current ++ [c]) rest

/-- Parse a method parameter list string into parameter descriptors. -/
def _parse_parameters (s : List Char) : List ParamD :=
  if s = [] then [] else ppGo 0 [] s

/-- The loop of the block extractor: stack of open braces and remaining input. -/
def blockLoop : List Char → List Char → List Char
  | _, [] => []
  | stack, c :: rest =>
    if c = obr then c :: blockLoop (obr :: stack) rest
    else if c = cbr then
      match stack with
      | [] => [c]
      | _ :: tail => if tail = [] then [c] else c :: blockLoop tail rest
    else if stack = [] then [c] else c :: blockLoop stack rest

/-- Extract a code block starting from the given index of the content. -/
def _extract_block (content : List Char) (start_index : Nat) : List Char :=
  blockLoop [] (content.drop start_index)

/-- Depth transition of the combined bracket counter. -/
def stepDepth (d : Int) (c : Char) : Int :=
  if isOpener c then d + 1 else if isCloser c then d - 1 else d

/-- Combined bracket depth of a character list, starting from zero. -/
def depthOf (s : List Char) : Int := s.foldl stepDepth 0

/-- Specification-level splitter: cut the input at commas occurring at combined
bracket depth zero, starting from depth d. -/
def splitTop : Int → List Char → List (List Char)
  | _, [] => [[]]
  | d, c :: rest =>
    if c = ',' ∧ d = 0 then [] :: splitTop 0 rest
    else
      match splitTop (stepDepth d c) rest with
      | [] => [[c]]
      | x :: xs => (c :: x) :: xs

/-- Join segments back with comma separators. -/
def joinC : List (List Char) → List Char
  | [] => []
  | x :: xs =>
    match xs with
    | [] => x
    | _ :: _ => x ++ ',' :: joinC xs

/-- Absolute positions of the boundaries between consecutive segments. -/
def bIdxs : List (List Char) → List Nat
  | [] => []
  | x :: xs =>
    match xs with
    | [] => []
    | _ :: _ => x.length :: (bIdxs xs).map (fun i => i + (x.length + 1))

/-- Prefix the first segment with the given accumulator. -/
def consFirst (cur : List Char) : List (List Char) → List (List Char)
  | [] => [cur]
  | x :: xs => (cur ++ x) :: xs

/-- Flush function in option form, for filterMap. -/
def flushFn (seg : List Char) : Option ParamD :=
  if pyStrip seg = [] then none else some (_parse_single_parameter (pyStrip seg))

/-- Signed contribution of one character to the brace balance. -/
def braceDelta (c : Char) : Int :=
  if c = obr then 1 else if c = cbr then -1 else 0

/-- Brace balance of a character list: opening braces minus closing braces. -/
def braceBal : List Char → Int
  | [] => 0
  | c :: l => braceDelta c + braceBal l

/-- Node attribute record; an outer none models an absent attribute key, and
the inner option of inherits models an attribute whose stored value may be the
Python None. -/
structure NodeAttrs where
  type_ : Option String := none
  name : Option String := none
  path : Option String := none
  access_modifier : Option String := none
  modifiers : Option String := none
  inherits : Option (Option String) := none
  return_type : Option String := none
  parameters : Option (List ParamD) := none
  property_type : Option String := none
  accessors : Option String := none
  event_type : Option String := none
  field_type : Option String := none
  version : Option String := none
deriving DecidableEq

/-- Directed graph with attributed nodes and at most one labelled edge per
ordered node pair, in insertion order. -/
structure Graph where
  nodes : List (String × NodeAttrs)
  edges : List (String × String × String)
deriving DecidableEq

/-- The empty graph. -/
def emptyGraph : Graph := ⟨[], []⟩

/-- Association-list lookup by key. -/
def lookA {α : Type} : List (String × α) → String → Option α
  | [], _ => none
  | (k', v) :: r, k => if k' = k then some v else lookA r k

/-- Look up the attributes of a node. -/
def lookupNode (g : Graph) (k : String) : Option NodeAttrs := lookA g.nodes k

/-- Guarded node insertion: add only when the key is absent, so the first
write wins and re-encounters never change stored attributes. -/
def upsertNode (g : Graph) (k : String) (a : NodeAttrs) : Graph :=
  match lookupNode g k with
  | some _ => g
  | none => { g with nodes := g.nodes ++ [(k, a)] }

/-- Replace the relation of the edge with the given endpoints in place, or
append a new edge when the ordered pair is absent. -/
def updE : List (String × String × String) → String → String → String →
    List (String × String × String)
  | [], u, v, r => [(u, v, r)]
  | e :: rest, u, v, r =>
    if e.1 = u ∧ e.2.1 = v then (u, v, r) :: rest else e :: updE rest u v r

/-- Relation label of the edge between an ordered node pair, if present. -/
def lookupEdge (es : List (String × String × String)) (u v : String) : Option String :=
  match es with
  | [] => none
  | e :: rest => if e.1 = u ∧ e.2.1 = v then some e.2.2 else lookupEdge rest u v

/-- The networkx add_edge operation: auto-create missing endpoint nodes with
empty attributes, then create or overwrite the single edge of the ordered pair. -/
def addEdge (g : Graph) (u v rel : String) : Graph :=
  let g1 := upsertNode g u {}
  let g2 := upsertNode g1 v {}
  { g2 with edges := updE g2.edges u v rel }

/-- Analyzer state: the graph, the metadata mappings, the analyzed-file set and
the statistics counters. -/
structure St where
  graph : Graph := emptyGraph
  class_methods : List (String × List String) := []
  method_params : List (String × List ParamD) := []
  method_returns : List (String × String) := []
  analyzed_files : List String := []
  files_processed : Nat := 0
  total_namespaces : Nat := 0
  total_classes : Nat := 0
  total_methods : Nat := 0
  total_interfaces : Nat := 0
  total_enums : Nat := 0
  total_structs : Nat := 0
  total_usings : Nat := 0
  total_dependencies : List String := []
deriving DecidableEq

/-- The initial analyzer state. -/
def initSt : St := {}

/-- Guarded node insertion lifted to the analyzer state. -/
def upsertSt (st : St) (k : String) (a : NodeAttrs) : St :=
  { st with graph := upsertNode st.graph k a }

/-- Edge creation lifted to the analyzer state. -/
def addEdgeSt (st : St) (u v rel : String) : St :=
  { st with graph := addEdge st.graph u v rel }

/-- Python str.endswith as a structural suffix check on character lists. -/
def endsWithS (s suffix : String) : Bool := List.isSuffixOf suffix.data s.data

/-- Python dict assignment on an association list: replace in place or append. -/
def updateAssoc {α : Type} (l : List (String × α)) (k : String) (v : α) :
    List (String × α) :=
  if l.any (fun p => p.1 == k) then l.map (fun p => if p.1 == k then (k, v) else p)
  else l ++ [(k, v)]

/-- Python set add on an insertion-ordered list model. -/
def addSet (l : List String) (x : String) : List String :=
  if x ∈ l then l else l ++ [x]

/-- Ordered alternation of an optional group of literal alternatives with full
continuation backtracking; the empty-group continuation is tried after all
literal alternatives fail. -/
def tryAlt {α : Type} (k : Option (List Char) → List Char → Option α) :
    List (List Char) → List Char → Option α
  | [], s => k none s
  | a :: rest, s =>
    match dropLit a s with
    | some r =>
      match k (some a) r with
      | some x => some x
      | none => tryAlt k rest s
    | none => tryAlt k rest s

/-- Split at the first occurrence of a character, the lazy any-up-to pattern,
returning the text before it and the rest after it; fails when absent. -/
def splitAtFirstC (t : Char) : List Char → Option (List Char × List Char)
  | [] => none
  | c :: rest =>
    if c = t then some ([], rest)
    else
      match splitAtFirstC t rest with
      | none => none
      | some (pre, post) => some (c :: pre, post)

/-- Access modifier alternatives in pattern order. -/
def accessAlts : List (List Char) :=
  [("public".data), ("protected".data), ("internal".data), ("private".data)]

/-- Class modifier alternatives. -/
def classModAlts : List (List Char) :=
  [("abstract".data), ("sealed".data), ("static".data), ("partial".data)]

/-- Method modifier alternatives. -/
def methodModAlts : List (List Char) :=
  [("static".data), ("virtual".data), ("override".data), ("abstract".data),
    ("async".data), ("sealed".data), ("new".data), ("extern".data)]

/-- Property and event modifier alternatives. -/
def propModAlts : List (List Char) :=
  [("static".data), ("virtual".data), ("override".data), ("abstract".data),
    ("sealed".data), ("new".data), ("extern".data)]

/-- Field modifier alternatives. -/
def fieldModAlts : List (List Char) :=
  [("static".data), ("readonly".data), ("const".data), ("volatile".data)]

/-- Match data of a using directive. -/
structure UsingM where
  ns : List Char

/-- Match data of a namespace declaration with its lazily captured body. -/
structure NamespaceM where
  nm : List Char
  body : List Char

/-- Match data of a class, interface or struct header; rest is the input
following the opening brace, giving the offset the block extractor starts at. -/
structure ClassM where
  acc : Option (List Char)
  mods : Option (List Char)
  nm : List Char
  inh : Option (List Char)
  rest : List Char

/-- Match data of a method definition with a body. -/
structure MethodM where
  acc : Option (List Char)
  mods : Option (List Char)
  rtype : List Char
  nm : List Char
  params : List Char

/-- Match data of an auto-property. -/
structure PropertyM where
  acc : Option (List Char)
  mods : Option (List Char)
  ptype : List Char
  nm : List Char
  accessors : List Char

/-- Match data of an event declaration. -/
structure EventM where
  acc : Option (List Char)
  mods : Option (List Char)
  etype : List Char
  nm : List Char

/-- Match data of a field declaration. -/
structure FieldM where
  acc : Option (List Char)
  mods : Option (List Char)
  ftype : List Char
  nm : List Char

/-- Match data of an enum declaration with its lazily captured member list. -/
structure EnumM where
  acc : Option (List Char)
  nm : List Char
  body : List Char

/-- Match data of a bodyless interface method. -/
structure IfaceMethodM where
  rtype : List Char
  nm : List Char
  params : List Char

/-- Match data of an interface property. -/
structure IfacePropM where
  ptype : List Char
  nm : List Char
  accessors : List Char

/-- Match data of a package dependency entry. -/
structure DepM where
  nm : List Char
  ver : List Char

/-- Matcher for the using-directive pattern: using, spaces, optional static,
a dotted identifier, optional spaces, semicolon. -/
def usingCont (t : List Char) : Option (UsingM × List Char) :=
  match plusOf (fun c => isWord c || c = '.') t with
  | none => none
  | some (ns, t1) =>
    match dropLit [(';')] (leadTrim t1) with
    | none => none
    | some rest => some (⟨ns⟩, rest)

/-- Matcher for the using-directive pattern at the current position. -/
def usingMatch (s : List Char) : Option (UsingM × List Char) :=
  match dropLit ("using".data) s with
  | none => none
  | some s1 =>
    match spacesPlus s1 with
    | none => none
    | some s2 =>
      match dropLit ("static".data) s2 with
      | some s3 =>
        match spacesPlus s3 with
        | some s4 =>
          match usingCont s4 with
          | some v => some v
          | none => usingCont s2
        | none => usingCont s2
      | none => usingCont s2

/-- Matcher for the namespace pattern: keyword, dotted identifier, optional
spaces, opening brace, then the lazily captured body up to the first closing
brace. -/
def namespaceMatch (s : List Char) : Option (NamespaceM × List Char) :=
  match dropLit ("namespace".data) s with
  | none => none
  | some s1 =>
    match spacesPlus s1 with
    | none => none
    | some s2 =>
      match plusOf (fun c => isWord c || c = '.') s2 with
      | none => none
      | some (nm, s3) =>
        match dropLit [obr] (leadTrim s3) with
        | none => none
        | some s4 =>
          match splitAtFirstC cbr s4 with
          | none => none
          | some (body, rest) => some (⟨nm, body⟩, rest)

/-- Characters admitted in an inheritance list group. -/
def inhChar (c : Char) : Bool := isWord c || c = ',' || isPySpace c

/-- Matcher for a type header: optional access modifier, optional modifier,
the given keyword, an identifier, an optional inheritance clause, then the
opening brace of the body. -/
def typeHeaderMatch (kw : List Char) (mods : List (List Char)) (s : List Char) :
    Option (ClassM × List Char) :=
  tryAlt (fun acc s1 =>
    tryAlt (fun m s3 =>
      match dropLit kw (leadTrim s3) with
      | none => none
      | some s4 =>
        match spacesPlus s4 with
        | none => none
        | some s5 =>
          match plusOf isWord s5 with
          | none => none
          | some (nm, s6) =>
            let tryInh : Option (ClassM × List Char) :=
              match dropLit [(':')] (leadTrim s6) with
              | none => none
              | some s7 =>
                match plusOf inhChar (leadTrim s7) with
                | none => none
                | some (inh, s8) =>
                  match dropLit [obr] (leadTrim s8) with
                  | none => none
                  | some rest => some (⟨acc, m, nm, some inh, rest⟩, rest)
            match tryInh with
            | some v => some v
            | none =>
              match dropLit [obr] (leadTrim s6) with
              | none => none
              | some rest => some (⟨acc, m, nm, none, rest⟩, rest))
      mods (leadTrim s1))
    accessAlts s

/-- Matcher for the class pattern. -/
def classMatch (s : List Char) : Option (ClassM × List Char) :=
  typeHeaderMatch ("class".data) classModAlts s

/-- Matcher for the interface pattern. -/
def interfaceMatch (s : List Char) : Option (ClassM × List Char) :=
  typeHeaderMatch ("interface".data) [("partial".data)] s

/-- Matcher for the struct pattern. -/
def structMatch (s : List Char) : Option (ClassM × List Char) :=
  typeHeaderMatch ("struct".data) [("partial".data)] s

/-- Matcher for the method pattern: optional access modifier, optional
modifier, return type token, identifier, parenthesised parameter text, then
the opening brace of the body. -/
def methodMatch (s : List Char) : Option (MethodM × List Char) :=
  tryAlt (fun acc s1 =>
    tryAlt (fun m s3 =>
      match plusOf isTypeChar (leadTrim s3) with
      | none => none
      | some (rt, s4) =>
        match spacesPlus s4 with
        | none => none
        | some s5 =>
          match plusOf isWord s5 with
          | none => none
          | some (nm, s6) =>
            match dropLit [('(')] (leadTrim s6) with
            | none => none
            | some s7 =>
              match dropLit [(')')] (s7.dropWhile (fun c => !(c = ')'))) with
              | none => none
              | some s8 =>
                match dropLit [obr] (leadTrim s8) with
                | none => none
                | some rest =>
                  some (⟨acc, m, rt, nm, s7.takeWhile (fun c => !(c = ')'))⟩, rest))
      methodModAlts (leadTrim s1))
    accessAlts s

/-- Property accessor alternatives in pattern order. -/
def propAccessorAlts : List (List Char) :=
  [("get;".data), ("set;".data), ("get; set;".data), ("set; get;".data)]

/-- Ordered alternation over the accessor alternatives with the closing brace
continuation. -/
def goAccessor (pt nm : List Char) (acc m : Option (List Char)) (s : List Char) :
    List (List Char) → Option (PropertyM × List Char)
  | [] => none
  | a :: rest =>
    match dropLit a s with
    | some s1 =>
      match dropLit [cbr] (leadTrim s1) with
      | some r => some (⟨acc, m, pt, nm, a⟩, r)
      | none => goAccessor pt nm acc m s rest
    | none => goAccessor pt nm acc m s rest

/-- Matcher for the auto-property pattern. -/
def propertyMatch (s : List Char) : Option (PropertyM × List Char) :=
  tryAlt (fun acc s1 =>
    tryAlt (fun m s3 =>
      match plusOf isTypeChar (leadTrim s3) with
      | none => none
      | some (pt, s4) =>
        match spacesPlus s4 with
        | none => none
        | some s5 =>
          match plusOf isWord s5 with
          | none => none
          | some (nm, s6) =>
            match dropLit [obr] (leadTrim s6) with
            | none => none
            | some s7 => goAccessor pt nm acc m (leadTrim s7) propAccessorAlts)
      propModAlts (leadTrim s1))
    accessAlts s

/-- Matcher for the event pattern. -/
def eventMatch (s : List Char) : Option (EventM × List Char) :=
  tryAlt (fun acc s1 =>
    tryAlt (fun m s3 =>
      match dropLit ("event".data) (leadTrim s3) with
      | none => none
      | some s4 =>
        match spacesPlus s4 with
        | none => none
        | some s5 =>
          match plusOf isTypeChar s5 with
          | none => none
          | some (et, s6) =>
            match spacesPlus s6 with
            | none => none
            | some s7 =>
              match plusOf isWord s7 with
              | none => none
              | some (nm, s8) =>
                match dropLit [(';')] (leadTrim s8) with
                | none => none
                | some rest => some (⟨acc, m, et, nm⟩, rest))
      propModAlts (leadTrim s1))
    accessAlts s

/-- Matcher for the field pattern, with the optional initializer group. -/
def fieldMatch (s : List Char) : Option (FieldM × List Char) :=
  tryAlt (fun acc s1 =>
    tryAlt (fun m s3 =>
      match plusOf isTypeChar (leadTrim s3) with
      | none => none
      | some (ft, s4) =>
        match spacesPlus s4 with
        | none => none
        | some s5 =>
          match plusOf isWord s5 with
          | none => none
          | some (nm, s6) =>
            let s7 := leadTrim s6
            let tryInit : Option (FieldM × List Char) :=
              match dropLit [('=')] s7 with
              | none => none
              | some s8 =>
                if s8.takeWhile (fun c => !(c = ';')) = [] then none
                else
                  match dropLit [(';')] (s8.dropWhile (fun c => !(c = ';'))) with
                  | none => none
                  | some rest => some (⟨acc, m, ft, nm⟩, rest)
            match tryInit with
            | some v => some v
            | none =>
              match dropLit [(';')] s7 with
              | none => none
              | some rest => some (⟨acc, m, ft, nm⟩, rest))
      fieldModAlts (leadTrim s1))
    accessAlts s

/-- Matcher for the enum pattern with the lazily captured member list. -/
def enumMatch (s : List Char) : Option (EnumM × List Char) :=
  tryAlt (fun acc s1 =>
    match dropLit ("enum".data) (leadTrim s1) with
    | none => none
    | some s2 =>
      match spacesPlus s2 with
      | none => none
      | some s3 =>
        match plusOf isWord s3 with
        | none => none
        | some (nm, s4) =>
          match dropLit [obr] (leadTrim s4) with
          | none => none
          | some s5 =>
            match splitAtFirstC cbr s5 with
            | none => none
            | some (body, rest) => some (⟨acc, nm, body⟩, rest))
    accessAlts s

/-- Matcher for a bodyless interface method ending in a semicolon. -/
def ifaceMethodMatch (s : List Char) : Option (IfaceMethodM × List Char) :=
  match plusOf isTypeChar s with
  | none => none
  | some (rt, s1) =>
    match spacesPlus s1 with
    | none => none
    | some s2 =>
      match plusOf isWord s2 with
      | none => none
      | some (nm, s3) =>
        match dropLit [('(')] (leadTrim s3) with
        | none => none
        | some s4 =>
          match dropLit [(')')] (s4.dropWhile (fun c => !(c = ')'))) with
          | none => none
          | some s5 =>
            match dropLit [(';')] (leadTrim s5) with
            | none => none
            | some rest => some (⟨rt, nm, s4.takeWhile (fun c => !(c = ')'))⟩, rest)

/-- Matcher for an interface property, whose accessor alternation tries the
get-set form, then get, then set. -/
def ifacePropMatch (s : List Char) : Option (IfacePropM × List Char) :=
  match plusOf isTypeChar s with
  | none => none
  | some (pt, s1) =>
    match spacesPlus s1 with
    | none => none
    | some s2 =>
      match plusOf isWord s2 with
      | none => none
      | some (nm, s3) =>
        match dropLit [obr] (leadTrim s3) with
        | none => none
        | some s4 =>
          let s5 := leadTrim s4
          let alt1 : Option (IfacePropM × List Char) :=
            match dropLit ("get;".data) s5 with
            | none => none
            | some t1 =>
              match dropLit ("set;".data) (t1.dropWhile isPySpace) with
              | none => none
              | some t2 =>
                match dropLit [cbr] (leadTrim t2) with
                | none => none
                | some rest =>
                  some (⟨pt, nm,
                    ("get;".data) ++ t1.takeWhile isPySpace ++ ("set;".data)⟩, rest)
          match alt1 with
          | some v => some v
          | none =>
            let alt2 : Option (IfacePropM × List Char) :=
              match dropLit ("get;".data) s5 with
              | none => none
              | some t1 =>
                match dropLit [cbr] (leadTrim t1) with
                | none => none
                | some rest => some (⟨pt, nm, ("get;".data)⟩, rest)
            match alt2 with
            | some v => some v
            | none =>
              match dropLit ("set;".data) s5 with
              | none => none
              | some t1 =>
                match dropLit [cbr] (leadTrim t1) with
                | none => none
                | some rest => some (⟨pt, nm, ("set;".data)⟩, rest)

/-- Matcher for a project-file PackageReference entry. -/
def csprojMatch (s : List Char) : Option (DepM × List Char) :=
  match dropLit ("<PackageReference".data) s with
  | none => none
  | some s1 =>
    match spacesPlus s1 with
    | none => none
    | some s2 =>
      match dropLit ("Include=\"".data) s2 with
      | none => none
      | some s3 =>
        match plusOf (fun c => !(c = '"')) s3 with
        | none => none
        | some (nm, s4) =>
          match dropLit [('"')] s4 with
          | none => none
          | some s5 =>
            match spacesPlus s5 with
            | none => none
            | some s6 =>
              match dropLit ("Version=\"".data) s6 with
              | none => none
              | some s7 =>
                match plusOf (fun c => !(c = '"')) s7 with
                | none => none
                | some (ver, s8) =>
                  match dropLit [('"')] s8 with
                  | none => none
                  | some s9 =>
                    match dropLit ("/>".data) (leadTrim s9) with
                    | none => none
                    | some rest => some (⟨nm, ver⟩, rest)

/-- The lazy any-up-to the self-closing tag end, failing at a newline. -/
def lazyToSlashGt : List Char → Option (List Char)
  | [] => none
  | '/' :: '>' :: r => some r
  | '\n' :: _ => none
  | _ :: r => lazyToSlashGt r

/-- Matcher for a legacy package-list entry. -/
def pkgcfgMatch (s : List Char) : Option (DepM × List Char) :=
  match dropLit ("<package".data) s with
  | none => none
  | some s1 =>
    match spacesPlus s1 with
    | none => none
    | some s2 =>
      match dropLit ("id=\"".data) s2 with
      | none => none
      | some s3 =>
        match plusOf (fun c => !(c = '"')) s3 with
        | none => none
        | some (nm, s4) =>
          match dropLit [('"')] s4 with
          | none => none
          | some s5 =>
            match spacesPlus s5 with
            | none => none
            | some s6 =>
              match dropLit ("version=\"".data) s6 with
              | none => none
              | some s7 =>
                match plusOf (fun c => !(c = '"')) s7 with
                | none => none
                | some (ver, s8) =>
                  match dropLit [('"')] s8 with
                  | none => none
                  | some s9 =>
                    match spacesPlus s9 with
                    | none => none
                    | some s10 =>
                      match lazyToSlashGt s10 with
                      | none => none
                      | some rest => some (⟨nm, ver⟩, rest)

/-- Scan for successive non-overlapping matches, continuing after each match,
advancing one character when no match starts at the current position. -/
def findIter {α : Type} (m : List Char → Option (α × List Char)) :
    Nat → List Char → List α
  | 0, _ => []
  | fuel + 1, s =>
    match m s with
    | some (a, rest) => a :: findIter m fuel rest
    | none =>
      match s with
      | [] => []
      | _ :: t => findIter m fuel t

/-- Python str.split on commas. -/
def splitOnComma : List Char → List (List Char)
  | [] => [[]]
  | c :: rest =>
    if c = ',' then [] :: splitOnComma rest
    else
      match splitOnComma rest with
      | [] => [[c]]
      | x :: xs => (c :: x) :: xs

/-- Body of the using recognizer for one match. -/
def usingBody (file_node : String) (st : St) (u : UsingM) : St :=
  let nsName := String.mk u.ns
  let using_node := ("Namespace: ") ++ nsName
  let st1 := upsertSt st using_node { type_ := some ("namespace"), name := some nsName }
  let st2 := addEdgeSt st1 file_node using_node ("USES_NAMESPACE")
  let st3 := { st2 with total_usings := st2.total_usings + 1 }
  if (!(List.isPrefixOf (("System").data) u.ns)) && (decide (('.') ∈ u.ns)) then
    let deps := addSet st3.total_dependencies (String.mk (u.ns.takeWhile (fun c => !(c = '.'))))
    { st3 with total_dependencies := deps }
  else st3

/-- Process using statements in the content. -/
def _process_usings (content : List Char) (file_node : String) (st : St) : St :=
  (findIter usingMatch (content.length + 1) content).foldl (usingBody file_node) st

/-- Body of the method recognizer for one match. -/
def methodBody (class_node : String) (st : St) (m : MethodM) : St :=
  let access_modifier := (m.acc.map String.mk).getD ("private")
  let modifiers := String.mk (pyStrip (m.mods.getD []))
  let method_name := String.mk m.nm
  let return_type := String.mk (pyStrip m.rtype)
  let method_node := ("Method: ") ++ method_name ++ (" (") ++ class_node ++ (")")
  let st1 := upsertSt st method_node
    { type_ := some ("method"), name := some method_name,
      access_modifier := some access_modifier, modifiers := some modifiers,
      return_type := some return_type,
      parameters := some (_parse_parameters m.params) }
  let st2 := addEdgeSt st1 class_node method_node ("HAS_METHOD")
  let cur := (lookA st2.class_methods class_node).getD []
  let cm := updateAssoc st2.class_methods class_node (cur ++ [method_name])
  let st3 := { st2 with class_methods := cm }
  let mp := updateAssoc st3.method_params method_node (_parse_parameters m.params)
  let st4 := { st3 with method_params := mp }
  let mr := updateAssoc st4.method_returns method_node return_type
  let st5 := { st4 with method_returns := mr }
  { st5 with total_methods := st5.total_methods + 1 }

/-- Process method declarations within a class or struct body. -/
def _process_methods (content : List Char) (class_node : String) (st : St) : St :=
  (findIter methodMatch (content.length + 1) content).foldl (methodBody class_node) st

/-- Body of the property recognizer for one match. -/
def propertyBody (class_node : String) (st : St) (m : PropertyM) : St :=
  let access_modifier := (m.acc.map String.mk).getD ("private")
  let modifiers := String.mk (pyStrip (m.mods.getD []))
  let property_name := String.mk m.nm
  let property_node := ("Property: ") ++ property_name ++ (" (") ++ class_node ++ (")")
  let st1 := upsertSt st property_node
    { type_ := some ("property"), name := some property_name,
      access_modifier := some access_modifier, modifiers := some modifiers,
      property_type := some (String.mk (pyStrip m.ptype)),
      accessors := some (String.mk (pyStrip m.accessors)) }
  addEdgeSt st1 class_node property_node ("HAS_PROPERTY")

/-- Process auto-property declarations within a class or struct body. -/
def _process_properties (content : List Char) (class_node : String) (st : St) : St :=
  (findIter propertyMatch (content.length + 1) content).foldl (propertyBody class_node) st

/-- Body of the event recognizer for one match. -/
def eventBody (class_node : String) (st : St) (m : EventM) : St :=
  let access_modifier := (m.acc.map String.mk).getD ("private")
  let modifiers := String.mk (pyStrip (m.mods.getD []))
  let event_name := String.mk m.nm
  let event_node := ("Event: ") ++ event_name ++ (" (") ++ class_node ++ (")")
  let st1 := upsertSt st event_node
    { type_ := some ("event"), name := some event_name,
      access_modifier := some access_modifier, modifiers := some modifiers,
      event_type := some (String.mk (pyStrip m.etype)) }
  addEdgeSt st1 class_node event_node ("HAS_EVENT")

/-- Process event declarations within a class body. -/
def _process_events (content : List Char) (class_node : String) (st : St) : St :=
  (findIter eventMatch (content.length + 1) content).foldl (eventBody class_node) st

/-- Body of the field recognizer for one match. -/
def fieldBody (class_node : String) (st : St) (m : FieldM) : St :=
  let access_modifier := (m.acc.map String.mk).getD ("private")
  let modifiers := String.mk (pyStrip (m.mods.getD []))
  let field_name := String.mk m.nm
  let field_node := ("Field: ") ++ field_name ++ (" (") ++ class_node ++ (")")
  let st1 := upsertSt st field_node
    { type_ := some ("field"), name := some field_name,
      access_modifier := some access_modifier, modifiers := some modifiers,
      field_type := some (String.mk (pyStrip m.ftype)) }
  addEdgeSt st1 class_node field_node ("HAS_FIELD")

/-- Process field declarations within a class or struct body. -/
def _process_fields (content : List Char) (class_node : String) (st : St) : St :=
  (findIter fieldMatch (content.length + 1) content).foldl (fieldBody class_node) st

/-- Body of the inheritance handler: a stub base node and an edge per base. -/
def inhBody (kindLabel typeName relation class_node : String) (st : St) (b : List Char) : St :=
  let base := String.mk (pyStrip b)
  let base_node := kindLabel ++ base
  let stA := upsertSt st base_node { type_ := some typeName, name := some base }
  addEdgeSt stA class_node base_node relation

/-- Body of the class recognizer for one match, including member recognizers
over the extracted body and the inheritance handler. -/
def classMatchBody (parent_node : String) (st : St) (cm : ClassM) : St :=
  let access_modifier := (cm.acc.map String.mk).getD ("internal")
  let modifiers := String.mk (pyStrip (cm.mods.getD []))
  let class_name := String.mk cm.nm
  let class_node := ("Class: ") ++ class_name
  let inh_attr : Option String := cm.inh.map (fun i => String.mk (pyStrip i))
  let st1 := upsertSt st class_node
    { type_ := some ("class"), name := some class_name,
      access_modifier := some access_modifier, modifiers := some modifiers,
      inherits := some inh_attr }
  let st2 := addEdgeSt st1 parent_node class_node ("CONTAINS_CLASS")
  let st3 := { st2 with total_classes := st2.total_classes + 1 }
  let body := _extract_block (obr :: cm.rest) 0
  let st4 := _process_methods body class_node st3
  let st5 := _process_properties body class_node st4
  let st6 := _process_events body class_node st5
  let st7 := _process_fields body class_node st6
  match cm.inh with
  | none => st7
  | some i =>
    (splitOnComma i).foldl (inhBody ("Class: ") ("class") ("INHERITS") class_node) st7

/-- Process class declarations. -/
def _process_classes (content : List Char) (parent_node : String) (st : St) : St :=
  (findIter classMatch (content.length + 1) content).foldl (classMatchBody parent_node) st

/-- Body of the interface method recognizer for one match. -/
def ifaceMethodBody (interface_node : String) (st : St) (m : IfaceMethodM) : St :=
  let method_name := String.mk m.nm
  let return_type := String.mk (pyStrip m.rtype)
  let method_node := ("Method: ") ++ method_name ++ (" (") ++ interface_node ++ (")")
  let st1 := upsertSt st method_node
    { type_ := some ("method"), name := some method_name,
      access_modifier := some ("public"), modifiers := some ("abstract"),
      return_type := some return_type,
      parameters := some (_parse_parameters m.params) }
  let st2 := addEdgeSt st1 interface_node method_node ("HAS_METHOD")
  let mp := updateAssoc st2.method_params method_node (_parse_parameters m.params)
  let st3 := { st2 with method_params := mp }
  let mr := updateAssoc st3.method_returns method_node return_type
  { st3 with method_returns := mr }

/-- Body of the interface property recognizer for one match. -/
def ifacePropBody (interface_node : String) (st : St) (m : IfacePropM) : St :=
  let property_name := String.mk m.nm
  let property_node := ("Property: ") ++ property_name ++ (" (") ++ interface_node ++ (")")
  let st1 := upsertSt st property_node
    { type_ := some ("property"), name := some property_name,
      access_modifier := some ("public"), modifiers := some ("abstract"),
      property_type := some (String.mk (pyStrip m.ptype)),
      accessors := some (String.mk (pyStrip m.accessors)) }
  addEdgeSt st1 interface_node property_node ("HAS_PROPERTY")

/-- Process the members of an interface body: methods then properties. -/
def _process_interface_members (content : List Char) (interface_node : String) (st : St) : St :=
  let st1 := (findIter ifaceMethodMatch (content.length + 1) content).foldl
    (ifaceMethodBody interface_node) st
  (findIter ifacePropMatch (content.length + 1) content).foldl
    (ifacePropBody interface_node) st1

/-- Body of the interface recognizer for one match. -/
def interfaceMatchBody (parent_node : String) (st : St) (cm : ClassM) : St :=
  let access_modifier := (cm.acc.map String.mk).getD ("internal")
  let modifiers := String.mk (pyStrip (cm.mods.getD []))
  let interface_name := String.mk cm.nm
  let interface_node := ("Interface: ") ++ interface_name
  let inh_attr : Option String := cm.inh.map (fun i => String.mk (pyStrip i))
  let st1 := upsertSt st interface_node
    { type_ := some ("interface"), name := some interface_name,
      access_modifier := some access_modifier, modifiers := some modifiers,
      inherits := some inh_attr }
  let st2 := addEdgeSt st1 parent_node interface_node ("CONTAINS_INTERFACE")
  let st3 := { st2 with total_interfaces := st2.total_interfaces + 1 }
  let body := _extract_block (obr :: cm.rest) 0
  let st4 := _process_interface_members body interface_node st3
  match cm.inh with
  | none => st4
  | some i =>
    (splitOnComma i).foldl
      (inhBody ("Interface: ") ("interface") ("INHERITS_INTERFACE") interface_node) st4

/-- Process interface declarations. -/
def _process_interfaces (content : List Char) (parent_node : String) (st : St) : St :=
  (findIter interfaceMatch (content.length + 1) content).foldl
    (interfaceMatchBody parent_node) st

/-- Body of the enum member handler for one member. -/
def enumMemberBody (enum_node : String) (st : St) (memberRaw : List Char) : St :=
  let member := String.mk (pyStrip ((pyStrip memberRaw).takeWhile (fun c => !(c = '='))))
  let member_node := ("EnumMember: ") ++ member ++ (" (") ++ enum_node ++ (")")
  let st1 := upsertSt st member_node { type_ := some ("enum_member"), name := some member }
  addEdgeSt st1 enum_node member_node ("HAS_MEMBER")

/-- Body of the enum recognizer for one match. -/
def enumBody (parent_node : String) (st : St) (em : EnumM) : St :=
  let access_modifier := (em.acc.map String.mk).getD ("internal")
  let enum_name := String.mk em.nm
  let enum_node := ("Enum: ") ++ enum_name
  let st1 := upsertSt st enum_node
    { type_ := some ("enum"), name := some enum_name,
      access_modifier := some access_modifier }
  let st2 := addEdgeSt st1 parent_node enum_node ("CONTAINS_ENUM")
  let st3 := { st2 with total_enums := st2.total_enums + 1 }
  ((splitOnComma em.body).filter (fun m => !(pyStrip m == []))).foldl
    (enumMemberBody enum_node) st3

/-- Process enum declarations. -/
def _process_enums (content : List Char) (parent_node : String) (st : St) : St :=
  (findIter enumMatch (content.length + 1) content).foldl (enumBody parent_node) st

/-- Body of the struct recognizer for one match. -/
def structMatchBody (parent_node : String) (st : St) (cm : ClassM) : St :=
  let access_modifier := (cm.acc.map String.mk).getD ("internal")
  let modifiers := String.mk (pyStrip (cm.mods.getD []))
  let struct_name := String.mk cm.nm
  let struct_node := ("Struct: ") ++ struct_name
  let inh_attr : Option String := cm.inh.map (fun i => String.mk (pyStrip i))
  let st1 := upsertSt st struct_node
    { type_ := some ("struct"), name := some struct_name,
      access_modifier := some access_modifier, modifiers := some modifiers,
      inherits := some inh_attr }
  let st2 := addEdgeSt st1 parent_node struct_node ("CONTAINS_STRUCT")
  let st3 := { st2 with total_structs := st2.total_structs + 1 }
  let body := _extract_block (obr :: cm.rest) 0
  let st4 := _process_methods body struct_node st3
  let st5 := _process_properties body struct_node st4
  let st6 := _process_fields body struct_node st5
  match cm.inh with
  | none => st6
  | some i =>
    (splitOnComma i).foldl (inhBody ("Struct: ") ("struct") ("INHERITS") struct_node) st6

/-- Process struct declarations. -/
def _process_structs (content : List Char) (parent_node : String) (st : St) : St :=
  (findIter structMatch (content.length + 1) content).foldl (structMatchBody parent_node) st

/-- Body of the namespace recognizer for one match, recursing into the type
recognizers over the captured body. -/
def namespaceBody (file_node : String) (st : St) (nsm : NamespaceM) : St :=
  let nm := String.mk nsm.nm
  let namespace_node := ("Namespace: ") ++ nm
  let st1 := upsertSt st namespace_node { type_ := some ("namespace"), name := some nm }
  let st2 := addEdgeSt st1 file_node namespace_node ("CONTAINS_NAMESPACE")
  let st3 := { st2 with total_namespaces := st2.total_namespaces + 1 }
  let st4 := _process_classes nsm.body namespace_node st3
  let st5 := _process_interfaces nsm.body namespace_node st4
  let st6 := _process_enums nsm.body namespace_node st5
  _process_structs nsm.body namespace_node st6

/-- Process namespace declarations and their contents. -/
def _process_namespaces (content : List Char) (file_node : String) (st : St) : St :=
  (findIter namespaceMatch (content.length + 1) content).foldl (namespaceBody file_node) st

/-- Process a source file: guard on the analyzed set, record the file node and
run the using and namespace recognizers over the content. -/
def _process_file (path content : String) (st : St) : St :=
  if path ∈ st.analyzed_files then st
  else
    let file_node := ("File: ") ++ path
    let st0 := { st with files_processed := st.files_processed + 1 }
    let st1 := { st0 with analyzed_files := st0.analyzed_files ++ [path] }
    let st2 := upsertSt st1 file_node { type_ := some ("file"), path := some path }
    let st3 := _process_usings content.data file_node st2
    _process_namespaces content.data file_node st3

/-- Body of the dependency recognizers for one package entry. -/
def depBody (file_node relation : String) (st : St) (dm : DepM) : St :=
  let package_name := String.mk dm.nm
  let version := String.mk dm.ver
  let dep_node := ("Dependency: ") ++ package_name
  let st1 := upsertSt st dep_node
    { type_ := some ("dependency"), name := some package_name, version := some version }
  let st2 := addEdgeSt st1 file_node dep_node relation
  { st2 with total_dependencies := addSet st2.total_dependencies package_name }

/-- Body of the lock-file dependency handler for one entry. -/
def lockDepBody (file_node : String) (st : St) (d : String × String) : St :=
  let dep_node := ("Dependency: ") ++ d.1
  let st1 := upsertSt st dep_node
    { type_ := some ("dependency"), name := some d.1, version := some d.2 }
  let st2 := addEdgeSt st1 file_node dep_node ("HAS_LOCKED_DEPENDENCY")
  { st2 with total_dependencies := addSet st2.total_dependencies d.1 }

/-- Process a dependency manifest.  The jsonDeps parameter models the external
JSON library call for lock files: it returns the dependencies mapping with
resolved versions, or none when parsing raises. -/
def _process_dependency_file (jsonDeps : String → Option (List (String × String)))
    (path content : String) (st : St) : St :=
  if path ∈ st.analyzed_files then st
  else
    let file_node := ("Dependency File: ") ++ path
    let st1 := { st with analyzed_files := st.analyzed_files ++ [path] }
    let st2 := upsertSt st1 file_node { type_ := some ("dependency_file"), path := some path }
    if endsWithS path (".csproj") then
      (findIter csprojMatch (content.data.length + 1) content.data).foldl
        (depBody file_node ("HAS_DEPENDENCY")) st2
    else if endsWithS path ("packages.config") then
      (findIter pkgcfgMatch (content.data.length + 1) content.data).foldl
        (depBody file_node ("HAS_DEPENDENCY")) st2
    else if endsWithS path ("packages.lock.json") then
      match jsonDeps content with
      | none => st2
      | some deps => deps.foldl (lockDepBody file_node) st2
    else st2

/-- Dispatch one discovered unit by filename suffix, as the directory walk does. -/
def processUnit (jsonDeps : String → Option (List (String × String)))
    (st : St) (unit : String × String) : St :=
  if endsWithS unit.1 (".cs") then _process_file unit.1 unit.2 st
  else if endsWithS unit.1 (".csproj") || endsWithS unit.1 ("packages.config") ||
      endsWithS unit.1 ("packages.lock.json") then
    _process_dependency_file jsonDeps unit.1 unit.2 st
  else st

/-- The extraction pipeline over the list of discovered units. -/
def analyze_codebase (jsonDeps : String → Option (List (String × String)))
    (units : List (String × String)) (st : St) : St :=
  units.foldl (processUnit jsonDeps) st

/-- A trivial JSON oracle used for concrete runs without lock files. -/
def jd0 : String → Option (List (String × String)) := fun _ => none

/-- Preservation relation of every pipeline step: once a node exists its
attributes never change, and the analyzed-file set only grows. -/
def keepRel (st st' : St) : Prop :=
  (∀ k a, lookupNode st.graph k = some a → lookupNode st'.graph k = some a) ∧
  (∀ p, p ∈ st.analyzed_files → p ∈ st'.analyzed_files)

/-- A node key is present in the graph. -/
def hasNodeB (g : Graph) (k : String) : Bool := (lookupNode g k).isSome

/-- Well-formedness of node attributes per kind: the kind attribute is present;
file and dependency-file nodes carry a path; every other kind carries a name. -/
def okAttrs (a : NodeAttrs) : Prop :=
  a.type_.isSome = true ∧
  ((a.type_ = some ("file") ∨ a.type_ = some ("dependency_file")) → a.path.isSome = true) ∧
  (a.type_ ≠ some ("file") → a.type_ ≠ some ("dependency_file") → a.name.isSome = true)

/-- All nodes of a graph are well formed. -/
def okNodes (g : Graph) : Prop := ∀ p ∈ g.nodes, okAttrs p.2

/-- Key list of an association list. -/
def keysOf {α : Type} (l : List (String × α)) : List String := l.map Prod.fst

/-- Pipeline state invariant: well-formed node attributes, and equal key lists
of the method-parameters and method-returns mappings. -/
def GoodSt (st : St) : Prop :=
  okNodes st.graph ∧ keysOf st.method_params = keysOf st.method_returns

/-- A unit is settled: if its suffix dispatches it to a processor, its path has
been recorded in the analyzed set. -/
def unitDone (u : String × String) (st : St) : Prop :=
  (endsWithS u.1 (".cs") = true ∨ endsWithS u.1 (".csproj") = true ∨
    endsWithS u.1 ("packages.config") = true ∨
    endsWithS u.1 ("packages.lock.json") = true) →
  u.1 ∈ st.analyzed_files

/-- Source text with two identically named classes in different namespaces,
each declaring a method Run. -/
def helperTwoNs : String := "namespace A \x7b class Helper \x7b public void Run() \x7b \x7d \x7d \x7d\nnamespace B \x7b class Helper \x7b public void Run() \x7b \x7d \x7d \x7d"

/-- The two-namespace text extended by a third namespace with a differently
named class also declaring Run. -/
def helperThreeNs : String := helperTwoNs ++ "\nnamespace C \x7b class Other \x7b public void Run() \x7b \x7d \x7d \x7d"

/-- A project manifest with two PackageReference entries for the same package
name and different versions. -/
def csprojDup : String := "<PackageReference Include=\"A\" Version=\"1.0\" />\n<PackageReference Include=\"A\" Version=\"2.0\" />"

/-- Source text whose file node first uses and then declares the same
namespace, proposing two different relations for one ordered node pair. -/
def usingNsContent : String := "using A.B;\nnamespace A.B \x7b \x7d"

/-- Edge additions applied in sequence. -/
def addEdges (g : Graph) (es : List (String × String × String)) : Graph :=
  es.foldl (fun g e => addEdge g e.1 e.2.1 e.2.2) g

/-- Ordered endpoint pairs of an edge list. -/
def edgePairs (es : List (String × String × String)) : List (String × String) :=
  es.map (fun e => (e.1, e.2.1))

theorem tw_mem {p : Char → Bool} : ∀ {s : List Char} {c : Char}, c ∈ s.takeWhile p → p c = true := by
  intro s
  induction s with
  | nil => intro c h; simp [List.takeWhile] at h
  | cons a l ih =>
    intro c h
    cases ha : p a with
    | false => simp [List.takeWhile, ha] at h
    | true =>
      simp [List.takeWhile, ha] at h
      rcases h with h | h
      · subst h; exact ha
      · exact ih h

theorem tw_all {p : Char → Bool} : ∀ {s : List Char}, (∀ c ∈ s, p c = true) → s.takeWhile p = s := by
  intro s
  induction s with
  | nil => intro _; rfl
  | cons a l ih =>
    intro h
    have ha : p a = true := h a (by simp)
    have hl : List.takeWhile p l = l := ih (fun c hc => h c (by simp [hc]))
    simp [List.takeWhile, ha, hl]

theorem tw_app {p : Char → Bool} :
    ∀ (xs ys : List Char), (∀ c ∈ xs, p c = true) → (∀ c, ys.head? = some c → p c = false) →
      (xs ++ ys).takeWhile p = xs ∧ (xs ++ ys).dropWhile p = ys := by
  intro xs
  induction xs with
  | nil =>
    intro ys _ hy
    cases ys with
    | nil => exact ⟨rfl, rfl⟩
    | cons b l =>
      have hb : p b = false := hy b rfl
      constructor
      · simp [List.takeWhile, hb]
      · simp [List.dropWhile, hb]
  | cons a xs ih =>
    intro ys hx hy
    have ha : p a = true := hx a (by simp)
    have := ih ys (fun c hc => hx c (by simp [hc])) hy
    constructor
    · simp [List.takeWhile, ha, this.1]
    · simp [List.dropWhile, ha, this.2]

theorem dw_head {p : Char → Bool} : ∀ {s : List Char} {c : Char}, (s.dropWhile p).head? = some c → p c = false := by
  intro s
  induction s with
  | nil => intro c h; simp [List.dropWhile] at h
  | cons a l ih =>
    intro c h
    cases ha : p a with
    | true => exact ih (by simpa [List.dropWhile, ha] using h)
    | false =>
      simp [List.dropWhile, ha] at h
      subst h; exact ha

theorem dw_head_false {p : Char → Bool} {c : Char} {l : List Char} (h : p c = false) :
    (c :: l).dropWhile p = c :: l := by
  simp [List.dropWhile, h]

theorem tw_ne_head : ∀ {p : Char → Bool} {s : List Char}, s.takeWhile p ≠ [] →
    ∃ c s', s = c :: s' ∧ p c = true := by
  intro p s h
  cases s with
  | nil => simp [List.takeWhile] at h
  | cons a l =>
    cases ha : p a with
    | false => simp [List.takeWhile, ha] at h
    | true => exact ⟨a, l, rfl, ha⟩

theorem dropLit_eq : ∀ (l s r : List Char), dropLit l s = some r → s = l ++ r := by
  intro l
  induction l with
  | nil => intro s r h; simp [dropLit] at h; simp [h]
  | cons a l ih =>
    intro s r h
    cases s with
    | nil => simp [dropLit] at h
    | cons c cs =>
      by_cases hca : c = a
      · subst hca
        simp [dropLit] at h
        have := ih cs r h
        simp [this]
      · simp [dropLit, hca] at h

theorem plusOf_eq {p : Char → Bool} {s t r : List Char} (h : plusOf p s = some (t, r)) :
    t = s.takeWhile p ∧ r = s.dropWhile p ∧ s.takeWhile p ≠ [] := by
  unfold plusOf at h
  split at h
  · exact absurd h (by simp)
  · rename_i hne
    refine ⟨?_, ?_, hne⟩ <;> injection h with h1 <;> injection h1 with h2 h3
    · exact h2.symm
    · exact h3.symm

theorem plusOf_none {p : Char → Bool} {s : List Char} (h : s.takeWhile p = []) :
    plusOf p s = none := by
  simp [plusOf, h]

theorem spacesPlus_eq {s r : List Char} (h : spacesPlus s = some r) :
    r = s.dropWhile isPySpace ∧ s.takeWhile isPySpace ≠ [] := by
  unfold spacesPlus at h
  cases hp : plusOf isPySpace s with
  | none => simp [hp] at h
  | some v =>
    simp [hp] at h
    have := plusOf_eq (s := s) (t := v.1) (r := v.2) (by simpa using hp)
    exact ⟨h ▸ this.2.1, this.2.2⟩

theorem spacesPlus_none {s : List Char} (h : s.takeWhile isPySpace = []) :
    spacesPlus s = none := by
  simp [spacesPlus, plusOf_none h]

theorem space_not_type {c : Char} (h : isPySpace c = true) : isTypeChar c = false := by
  simp only [isPySpace, Bool.or_eq_true, decide_eq_true_eq] at h
  rcases h with ((((h | h) | h) | h) | h) | h <;> subst h <;> decide

theorem space_not_word {c : Char} (h : isPySpace c = true) : isWord c = false := by
  simp only [isPySpace, Bool.or_eq_true, decide_eq_true_eq] at h
  rcases h with ((((h | h) | h) | h) | h) | h <;> subst h <;> decide

theorem word_type {c : Char} (h : isWord c = true) : isTypeChar c = true := by
  simp [isTypeChar, h]

theorem default_match_parts {p d : List Char} (h : default_match p = some d) :
    ∃ t s1 s2 n s3 s4,
      plusOf isTypeChar p = some (t, s1) ∧ spacesPlus s1 = some s2 ∧
      plusOf isWord s2 = some (n, s3) ∧ dropLit [('=')] (leadTrim s3) = some s4 ∧
      dotPlusTail s4 = some d := by
  unfold default_match at h
  rw [Option.bind_eq_some] at h
  obtain ⟨⟨t, s1⟩, h1, h⟩ := h
  dsimp only at h
  rw [Option.bind_eq_some] at h
  obtain ⟨s2, h2, h⟩ := h
  rw [Option.bind_eq_some] at h
  obtain ⟨⟨n, s3⟩, h3, h⟩ := h
  dsimp only at h
  rw [Option.bind_eq_some] at h
  obtain ⟨s4, h4, h⟩ := h
  exact ⟨t, s1, s2, n, s3, s4, h1, h2, h3, h4, h⟩

theorem dropWhile_nil_of_takeWhile_all {p : Char → Bool} {s : List Char}
    (h : s.takeWhile p = s) : s.dropWhile p = [] := by
  have hs := List.takeWhile_append_dropWhile (p := p) (l := s)
  rw [h] at hs
  have : s ++ s.dropWhile p = s ++ [] := by simpa using hs
  exact List.append_cancel_left this

theorem matchAfterMod_none {p r m d : List Char}
    (hm : ∀ c ∈ m, isTypeChar c = true) (hr : dropLit m p = some r)
    (hdef : default_match p = some d) : matchAfterMod r = none := by
  obtain ⟨t, s1, s2, n, s3, s4, h1, h2, h3, h4, _⟩ := default_match_parts hdef
  unfold matchAfterMod
  cases hsp : spacesPlus r with
  | none => simp [hsp]
  | some r2 =>
    obtain ⟨hr2, hrne⟩ := spacesPlus_eq hsp
    obtain ⟨c0, r', hr', hc0⟩ := tw_ne_head hrne
    have hp : p = m ++ r := dropLit_eq _ _ _ hr
    have hhead : ∀ c, r.head? = some c → isTypeChar c = false := by
      intro c hc
      rw [hr'] at hc
      injection hc with hc
      subst hc
      exact space_not_type hc0
    have happ := tw_app (p := isTypeChar) m r hm hhead
    have ht1 := plusOf_eq h1
    have hs1r : s1 = r := by rw [ht1.2.1, hp, happ.2]
    rw [hs1r] at h2
    have hs2 : s2 = r.dropWhile isPySpace := (spacesPlus_eq h2).1
    have hr2s2 : r2 = s2 := by rw [hr2, hs2]
    have hn := plusOf_eq h3
    have hnall : ∀ c ∈ n, isTypeChar c = true := by
      intro c hc
      rw [hn.1] at hc
      exact word_type (tw_mem hc)
    have hsplit : s2 = n ++ s3 := by
      rw [hn.1, hn.2.1]
      exact (List.takeWhile_append_dropWhile (p := isWord) (l := s2)).symm
    simp only [Option.bind, hr2s2]
    cases hT : plusOf isTypeChar s2 with
    | none => simp
    | some v =>
      obtain ⟨T, sT⟩ := v
      simp only [Option.bind]
      have hTe := plusOf_eq hT
      cases hs3 : s3 with
      | nil =>
        have hall : s2.takeWhile isTypeChar = s2 := by
          apply tw_all
          intro c hc
          rw [hsplit, hs3] at hc
          simp at hc
          exact hnall c hc
        have hsTnil : sT = [] := by
          rw [hTe.2.1]
          exact dropWhile_nil_of_takeWhile_all hall
        have : spacesPlus sT = none := by
          apply spacesPlus_none
          rw [hsTnil]
          rfl
        simp [this]
      | cons c1 s3' =>
        by_cases hc1s : isPySpace c1 = true
        · have happ2 := tw_app (p := isTypeChar) n s3 hnall ?hd2
          case hd2 =>
            intro c hc
            rw [hs3] at hc
            injection hc with hc
            subst hc
            exact space_not_type hc1s
          have hsTs3 : sT = s3 := by rw [hTe.2.1, hsplit, happ2.2]
          have hlead : leadTrim s3 = ('=') :: s4 := by
            have := dropLit_eq _ _ _ h4
            simpa using this
          cases hst : spacesPlus sT with
          | none => simp
          | some u =>
            have hu : u = sT.dropWhile isPySpace := (spacesPlus_eq hst).1
            have hus : u = ('=') :: s4 := by
              rw [hu, hsTs3]
              exact hlead
            have hw : plusOf isWord u = none := by
              apply plusOf_none
              rw [hus]
              rfl
            simp [hw]
        · have hlead : leadTrim s3 = s3 := by
            rw [hs3]
            exact dw_head_false (by simpa using hc1s)
          have hs3eq : s3 = ('=') :: s4 := by
            have := dropLit_eq _ _ _ h4
            rw [hlead] at this
            simpa using this
          have hc1e : c1 = '=' := by
            rw [hs3] at hs3eq
            injection hs3eq
          have happ2 := tw_app (p := isTypeChar) n s3 hnall ?hd3
          case hd3 =>
            intro c hc
            rw [hs3] at hc
            injection hc with hc
            subst hc
            rw [hc1e]
            decide
          have hsTs3 : sT = s3 := by rw [hTe.2.1, hsplit, happ2.2]
          have hns : spacesPlus sT = none := by
            apply spacesPlus_none
            rw [hsTs3, hs3, hc1e]
            rfl
          simp [hns]

theorem goMod_none : ∀ (alts : List (List Char)) (p : List Char),
    (∀ m ∈ alts, ∀ r, dropLit m p = some r → matchAfterMod r = none) → goMod alts p = none := by
  intro alts
  induction alts with
  | nil => intro p _; rfl
  | cons m ms ih =>
    intro p h
    unfold goMod
    cases hd : dropLit m p with
    | none => exact ih p (fun m' hm' => h m' (by simp [hm']))
    | some r =>
      dsimp only
      rw [h m (by simp) r hd]
      exact ih p (fun m' hm' => h m' (by simp [hm']))

theorem modifier_match_none_of_default {p d : List Char} (hdef : default_match p = some d) :
    modifier_match p = none := by
  unfold modifier_match
  apply goMod_none
  intro m hm r hr
  have hmchars : ∀ c ∈ m, isTypeChar c = true := by
    simp only [modAlts, List.mem_cons, List.not_mem_nil, or_false] at hm
    rcases hm with h | h | h | h <;> subst h <;> decide
  exact matchAfterMod_none hmchars hr hdef

theorem type_name_some_of_default {p d : List Char} (hdef : default_match p = some d) :
    (type_name_match p).isSome = true := by
  obtain ⟨t, s1, s2, n, s3, s4, h1, h2, h3, _, _⟩ := default_match_parts hdef
  unfold type_name_match
  rw [h1]
  simp only [Option.bind]
  rw [h2]
  simp only [Option.bind]
  rw [h3]
  simp

/-- C2: corrected form.  The parameter parser attaches a trailing default
expression only when the default pattern (plain type-name shape followed by an
equals sign) matches: whenever a default is attached, the descriptor comes from
the plain type-name branch, never the modifier branch nor the raw-text
fallback branch. -/
theorem c2_default_only_in_type_name_branch : ∀ p : List Char,
    ((_parse_single_parameter p).default).isSome = true →
    (_parse_single_parameter p).modifier = none ∧
      ((_parse_single_parameter p).type_).isSome = true := by
  intro p h
  unfold _parse_single_parameter at h ⊢
  cases hdm : default_match p with
  | none =>
    rw [hdm] at h
    cases hmm : modifier_match p with
    | some v =>
      obtain ⟨m, t, n⟩ := v
      rw [hmm] at h
      simp at h
    | none =>
      rw [hmm] at h
      cases htn : type_name_match p with
      | some v =>
        obtain ⟨t, n⟩ := v
        rw [htn] at h
        simp at h
      | none =>
        rw [htn] at h
        simp at h
  | some d =>
    have hdef : default_match p = some d := hdm
    have hmm := modifier_match_none_of_default hdef
    have htn := type_name_some_of_default hdef
    rw [hmm]
    cases htn2 : type_name_match p with
    | none => rw [htn2] at htn; simp at htn
    | some v =>
      obtain ⟨t, n⟩ := v
      simp

/-- C2 counterexample: the segment `ref int x = 5` ends in a trailing equals
expression and matches the leading-modifier branch, yet no default is attached;
the raw-text fallback segment `x = 5` likewise receives no default. -/
theorem c2_counterexample :
    (_parse_single_parameter (("ref int x = 5").data)).modifier = some ("ref") ∧
    (_parse_single_parameter (("ref int x = 5").data)).default = none ∧
    (_parse_single_parameter (("x = 5").data)).type_ = none ∧
    (_parse_single_parameter (("x = 5").data)).name = ("x = 5") ∧
    (_parse_single_parameter (("x = 5").data)).default = none := by
  decide

/-- C2 witness: the amended theorem applied at the concrete segment `int x = 5`. -/
theorem c2_witness :
    ((_parse_single_parameter (("int x = 5").data)).default).isSome = true ∧
    ((_parse_single_parameter (("int x = 5").data)).modifier = none ∧
      ((_parse_single_parameter (("int x = 5").data)).type_).isSome = true) :=
  ⟨by decide, c2_default_only_in_type_name_branch _ (by decide)⟩

theorem splitTop_ne_nil : ∀ (d : Int) (s : List Char), splitTop d s ≠ [] := by
  intro d s
  induction s generalizing d with
  | nil => simp [splitTop]
  | cons c rest ih =>
    by_cases h : c = ',' ∧ d = 0
    · simp [splitTop, if_pos h]
    · simp only [splitTop, if_neg h]
      cases hS : splitTop (stepDepth d c) rest with
      | nil => exact absurd hS (ih _)
      | cons x xs => simp

theorem ppGo_cons_non_comma {c : Char} {d : Int} (h : ¬(c = ',' ∧ d = 0))
    (cur rest : List Char) :
    ppGo d cur (c :: rest) = ppGo (stepDepth d c) (cur ++ [c]) rest := by
  by_cases ho : isOpener c
  · simp [ppGo, stepDepth, ho]
  · by_cases hc : isCloser c
    · simp [ppGo, stepDepth, ho, hc]
    · simp [ppGo, stepDepth, ho, hc, if_neg h]

theorem splitTop_cons_comma {d : Int} {c : Char} (h : c = ',' ∧ d = 0) (rest : List Char) :
    splitTop d (c :: rest) = [] :: splitTop 0 rest := by
  simp [splitTop, if_pos h]

theorem ppFlush_toList (cur : List Char) : ppFlush cur = (flushFn cur).toList := by
  unfold ppFlush flushFn
  split <;> simp

theorem consFirst_ne_nil_id {S : List (List Char)} (h : S ≠ []) : consFirst [] S = S := by
  cases S with
  | nil => exact absurd rfl h
  | cons x xs => simp [consFirst]

theorem ppGo_splitTop : ∀ (s : List Char) (d : Int) (cur : List Char),
    ppGo d cur s = (consFirst cur (splitTop d s)).filterMap flushFn := by
  intro s
  induction s with
  | nil =>
    intro d cur
    show ppFlush cur = (consFirst cur [[]]).filterMap flushFn
    rw [ppFlush_toList]
    simp [consFirst, List.filterMap_cons]
    cases hf : flushFn cur <;> simp
  | cons c rest ih =>
    intro d cur
    by_cases hcm : c = ',' ∧ d = 0
    · obtain ⟨hc, hd⟩ := hcm
      subst hc
      subst hd
      rw [splitTop_cons_comma ⟨rfl, rfl⟩]
      have hne := splitTop_ne_nil 0 rest
      cases hS : splitTop 0 rest with
      | nil => exact absurd hS hne
      | cons x xs =>
        show ppFlush cur ++ ppGo 0 [] rest = _
        rw [ih 0 [], hS, ppFlush_toList]
        show (flushFn cur).toList ++ (consFirst [] (x :: xs)).filterMap flushFn =
          (consFirst cur ([] :: x :: xs)).filterMap flushFn
        rw [consFirst_ne_nil_id (by simp)]
        show _ = ((cur ++ []) :: x :: xs).filterMap flushFn
        rw [List.append_nil, List.filterMap_cons]
        cases hf : flushFn cur <;> simp [List.filterMap_cons, hf]
    · rw [ppGo_cons_non_comma hcm]
      rw [ih (stepDepth d c) (cur ++ [c])]
      simp only [splitTop, if_neg hcm]
      have hne := splitTop_ne_nil (stepDepth d c) rest
      cases hS : splitTop (stepDepth d c) rest with
      | nil => exact absurd hS hne
      | cons x xs =>
        simp only [consFirst]
        simp [List.append_assoc]

theorem joinC_splitTop : ∀ (s : List Char) (d : Int), joinC (splitTop d s) = s := by
  intro s
  induction s with
  | nil => intro d; rfl
  | cons c rest ih =>
    intro d
    by_cases hcm : c = ',' ∧ d = 0
    · obtain ⟨hc, hd⟩ := hcm
      subst hc
      subst hd
      rw [splitTop_cons_comma ⟨rfl, rfl⟩]
      have hrest := ih 0
      have hne := splitTop_ne_nil 0 rest
      cases hS : splitTop 0 rest with
      | nil => exact absurd hS hne
      | cons x xs =>
        rw [hS] at hrest
        show [] ++ ',' :: joinC (x :: xs) = ',' :: rest
        simp [hrest]
    · simp only [splitTop, if_neg hcm]
      have hrest := ih (stepDepth d c)
      have hne := splitTop_ne_nil (stepDepth d c) rest
      cases hS : splitTop (stepDepth d c) rest with
      | nil => exact absurd hS hne
      | cons x xs =>
        rw [hS] at hrest
        cases xs with
        | nil =>
          show c :: x = c :: rest
          rw [show joinC [x] = x from rfl] at hrest
          rw [hrest]
        | cons z zs =>
          show (c :: x) ++ ',' :: joinC (z :: zs) = c :: rest
          rw [← hrest]
          rfl

theorem stepDepth_shift (d : Int) (c : Char) : stepDepth d c = d + stepDepth 0 c := by
  unfold stepDepth
  by_cases ho : isOpener c <;> by_cases hc : isCloser c <;> simp [ho, hc] <;> omega

theorem foldl_stepDepth (l : List Char) : ∀ d : Int,
    l.foldl stepDepth d = d + l.foldl stepDepth 0 := by
  induction l with
  | nil => intro d; simp
  | cons c l ih =>
    intro d
    show l.foldl stepDepth (stepDepth d c) = d + l.foldl stepDepth (stepDepth 0 c)
    rw [ih (stepDepth d c), ih (stepDepth 0 c), stepDepth_shift d c]
    omega

theorem depthOf_cons (c : Char) (l : List Char) :
    depthOf (c :: l) = stepDepth 0 c + depthOf l := by
  unfold depthOf
  show l.foldl stepDepth (stepDepth 0 c) = _
  rw [foldl_stepDepth l (stepDepth 0 c)]

theorem filter_map_succ (P : Nat → Bool) : ∀ l : List Nat,
    (l.map Nat.succ).filter P = (l.filter (fun j => P (j + 1))).map Nat.succ := by
  intro l
  induction l with
  | nil => rfl
  | cons a l ih =>
    simp only [List.map_cons, List.filter_cons, ih]
    cases hP : P (a + 1) <;> simp [Nat.succ_eq_add_one, hP]

theorem range_succ_filter (P : Nat → Bool) (n : Nat) :
    (List.range (n + 1)).filter P =
      (if P 0 then [0] else []) ++
        ((List.range n).filter (fun j => P (j + 1))).map (fun j => j + 1) := by
  rw [List.range_succ_eq_map, List.filter_cons, filter_map_succ]
  have : List.map Nat.succ = List.map (fun j => j + 1) := by
    funext l
    apply List.map_congr_left
    intro a _
    exact Nat.succ_eq_add_one a
  rw [this]
  cases hP : P 0 <;> simp

theorem bIdxs_splitTop : ∀ (s : List Char) (d : Int),
    bIdxs (splitTop d s) = (List.range s.length).filter
      (fun i => (s.get? i == some ',') && (d + depthOf (s.take i) == 0)) := by
  intro s
  induction s with
  | nil => intro d; rfl
  | cons c rest ih =>
    intro d
    rw [show (c :: rest).length = rest.length + 1 from rfl, range_succ_filter]
    have hpred : (fun j => (((c :: rest).get? (j + 1) == some ',') &&
        (d + depthOf ((c :: rest).take (j + 1)) == 0))) =
        (fun i => ((rest.get? i == some ',') &&
          ((d + stepDepth 0 c) + depthOf (rest.take i) == 0))) := by
      funext j
      rw [show (c :: rest).get? (j + 1) = rest.get? j from rfl,
        show (c :: rest).take (j + 1) = c :: rest.take j from rfl, depthOf_cons,
        show d + (stepDepth 0 c + depthOf (rest.take j)) =
          (d + stepDepth 0 c) + depthOf (rest.take j) from by ring]
    rw [hpred]
    by_cases hcm : c = ',' ∧ d = 0
    · obtain ⟨hc, hd⟩ := hcm
      subst hc
      subst hd
      rw [splitTop_cons_comma ⟨rfl, rfl⟩]
      have hq : ((0 : Int) + stepDepth 0 ',') = 0 := by decide
      simp only [hq]
      have hne := splitTop_ne_nil 0 rest
      have hrest := ih 0
      cases hS : splitTop 0 rest with
      | nil => exact absurd hS hne
      | cons x xs =>
        rw [hS] at hrest
        rw [← hrest]
        have hP0 : ((((',' : Char) :: rest).get? 0 == some ',') &&
            ((0 : Int) + depthOf ((((',' : Char)) :: rest).take 0) == 0)) = true := rfl
        rw [if_pos hP0]
        show 0 :: (bIdxs (x :: xs)).map (fun i => i + (0 + 1)) =
          [0] ++ (bIdxs (x :: xs)).map (fun j => j + 1)
        simp
    · simp only [splitTop, if_neg hcm]
      have hne := splitTop_ne_nil (stepDepth d c) rest
      have hP0 : ((((c : Char) :: rest).get? 0 == some ',') &&
          (d + depthOf (((c : Char) :: rest).take 0) == 0)) = false := by
        show ((some c == some ',') && (d + depthOf ([] : List Char) == 0)) = false
        by_cases hc : c = ','
        · subst hc
          have hd : ¬ d = 0 := fun h => hcm ⟨rfl, h⟩
          have hbe : (d + depthOf ([] : List Char) == 0) = false := by
            show (d + 0 == 0) = false
            simp
            omega
          simp [hbe]
        · have hbe : ((some c == some ',')) = false := by
            simp [hc]
          simp [hbe]
      rw [if_neg (by rw [hP0]; simp)]
      cases hS : splitTop (stepDepth d c) rest with
      | nil => exact absurd hS hne
      | cons x xs =>
        have hrest := ih (stepDepth d c)
        rw [hS] at hrest
        rw [stepDepth_shift d c] at hrest
        dsimp only
        rw [← hrest]
        cases xs with
        | nil =>
          show ([] : List Nat) = [] ++ (bIdxs [x]).map (fun j => j + 1)
          rfl
        | cons z zs =>
          show (c :: x).length :: (bIdxs (z :: zs)).map (fun i => i + ((c :: x).length + 1)) =
            [] ++ (x.length :: (bIdxs (z :: zs)).map (fun i => i + (x.length + 1))).map
              (fun j => j + 1)
          simp only [List.nil_append, List.map_cons, List.map_map, List.length_cons]
          have hfun : ((fun j => j + 1) ∘ (fun i => i + (x.length + 1))) =
              (fun i => i + (x.length + 1 + 1)) := by
            funext i
            simp [Function.comp]
            omega
          rw [hfun]

/-- C3: the parameter parser splits only at commas at combined bracket depth
zero.  Conjuncts: the empty string yields no descriptors; the parser is the
composition of the top-level splitter with strip, the nonempty filter and the
single-parameter parser; joining the splitter segments with commas restores the
input, so every boundary is a comma and nothing is dropped; and the boundary
positions of the splitter are exactly the comma positions whose preceding
prefix has combined depth zero. -/
theorem c3_parse_parameters_top_level_split :
    _parse_parameters [] = [] ∧
    (∀ s : List Char, _parse_parameters s = (splitTop 0 s).filterMap flushFn) ∧
    (∀ s : List Char, joinC (splitTop 0 s) = s) ∧
    (∀ (d : Int) (s : List Char), bIdxs (splitTop d s) = (List.range s.length).filter
      (fun i => (s.get? i == some ',') && (d + depthOf (s.take i) == 0))) := by
  refine ⟨rfl, ?_, fun s => joinC_splitTop s 0, fun d s => bIdxs_splitTop s d⟩
  intro s
  unfold _parse_parameters
  by_cases hs : s = []
  · subst hs
    simp [splitTop, flushFn, ppFlush, pyStrip]
  · rw [if_neg hs, ppGo_splitTop s 0 []]
    rw [consFirst_ne_nil_id (splitTop_ne_nil 0 s)]

theorem braceBal_cons (c : Char) (l : List Char) :
    braceBal (c :: l) = braceDelta c + braceBal l := rfl

theorem blockLoop_spec : ∀ (s : List Char) (stk : List Char), stk ≠ [] →
    (∃ n, 0 < n ∧ n ≤ s.length ∧ (stk.length : Int) + braceBal (s.take n) = 0 ∧
      (∀ m, m < n → 0 < (stk.length : Int) + braceBal (s.take m)) ∧
      blockLoop stk s = s.take n) ∨
    ((∀ n, n ≤ s.length → (stk.length : Int) + braceBal (s.take n) ≠ 0) ∧
      blockLoop stk s = s) := by
  intro s
  induction s with
  | nil =>
    intro stk hst
    right
    refine ⟨?_, rfl⟩
    intro n hn
    have hn0 : n = 0 := Nat.le_zero.mp hn
    subst hn0
    have hpos : 0 < stk.length := List.length_pos.mpr hst
    show (stk.length : Int) + braceBal [] ≠ 0
    show (stk.length : Int) + 0 ≠ 0
    omega
  | cons c rest ih =>
    intro stk hst
    have hpos : 0 < stk.length := List.length_pos.mpr hst
    by_cases hco : c = obr
    · subst hco
      have hrec : blockLoop stk (obr :: rest) = obr :: blockLoop (obr :: stk) rest := by
        simp [blockLoop]
      rcases ih (obr :: stk) (by simp) with ⟨n, hn0, hnle, hbal, hmin, heq⟩ | ⟨hall, heq⟩
      · left
        refine ⟨n + 1, by omega, by simp; omega, ?_, ?_, ?_⟩
        · show (stk.length : Int) + braceBal (obr :: rest.take n) = 0
          rw [braceBal_cons]
          have hd : braceDelta obr = 1 := rfl
          rw [hd]
          simp only [List.length_cons] at hbal
          push_cast at hbal ⊢
          omega
        · intro m hm
          cases m with
          | zero =>
            show 0 < (stk.length : Int) + braceBal []
            show 0 < (stk.length : Int) + 0
            omega
          | succ m' =>
            have hmlt : m' < n := by omega
            have := hmin m' hmlt
            show 0 < (stk.length : Int) + braceBal (obr :: rest.take m')
            rw [braceBal_cons, show braceDelta obr = 1 from rfl]
            simp only [List.length_cons] at this
            push_cast at this ⊢
            omega
        · rw [hrec, heq]
          rfl
      · right
        constructor
        · intro n hn
          cases n with
          | zero =>
            show (stk.length : Int) + braceBal [] ≠ 0
            show (stk.length : Int) + 0 ≠ 0
            omega
          | succ m =>
            have hm : m ≤ rest.length := by simpa using hn
            have := hall m hm
            show (stk.length : Int) + braceBal (obr :: rest.take m) ≠ 0
            rw [braceBal_cons, show braceDelta obr = 1 from rfl]
            simp only [List.length_cons] at this
            push_cast at this ⊢
            omega
        · rw [hrec, heq]
    · by_cases hcc : c = cbr
      · subst hcc
        cases stk with
        | nil => exact absurd rfl hst
        | cons a tail =>
          cases tail with
          | nil =>
            left
            refine ⟨1, by omega, by simp, ?_, ?_, ?_⟩
            · show ((1 : Nat) : Int) + braceBal [cbr] = 0
              rw [braceBal_cons, show braceDelta cbr = -1 from rfl]
              show ((1 : Nat) : Int) + (-1 + braceBal []) = 0
              show ((1 : Nat) : Int) + (-1 + 0) = 0
              omega
            · intro m hm
              have hm0 : m = 0 := by omega
              subst hm0
              show 0 < ((1 : Nat) : Int) + braceBal []
              show 0 < ((1 : Nat) : Int) + 0
              omega
            · show blockLoop [a] (cbr :: rest) = [cbr]
              simp [blockLoop, show ¬(cbr = obr) from by decide]
          | cons b ts =>
            have hrec : blockLoop (a :: b :: ts) (cbr :: rest) =
                cbr :: blockLoop (b :: ts) rest := by
              simp [blockLoop, show ¬(cbr = obr) from by decide]
            rcases ih (b :: ts) (by simp) with ⟨n, hn0, hnle, hbal, hmin, heq⟩ | ⟨hall, heq⟩
            · left
              refine ⟨n + 1, by omega, by simp; omega, ?_, ?_, ?_⟩
              · show ((a :: b :: ts).length : Int) + braceBal (cbr :: rest.take n) = 0
                rw [braceBal_cons, show braceDelta cbr = -1 from rfl]
                simp only [List.length_cons] at hbal ⊢
                push_cast at hbal ⊢
                omega
              · intro m hm
                cases m with
                | zero =>
                  show 0 < ((a :: b :: ts).length : Int) + braceBal []
                  show 0 < ((a :: b :: ts).length : Int) + 0
                  simp only [List.length_cons]
                  push_cast
                  omega
                | succ m' =>
                  have hmlt : m' < n := by omega
                  have := hmin m' hmlt
                  show 0 < ((a :: b :: ts).length : Int) + braceBal (cbr :: rest.take m')
                  rw [braceBal_cons, show braceDelta cbr = -1 from rfl]
                  simp only [List.length_cons] at this ⊢
                  push_cast at this ⊢
                  omega
              · rw [hrec, heq]
                rfl
            · right
              constructor
              · intro n hn
                cases n with
                | zero =>
                  show ((a :: b :: ts).length : Int) + braceBal [] ≠ 0
                  show ((a :: b :: ts).length : Int) + 0 ≠ 0
                  simp only [List.length_cons]
                  push_cast
                  omega
                | succ m =>
                  have hm : m ≤ rest.length := by simpa using hn
                  have := hall m hm
                  show ((a :: b :: ts).length : Int) + braceBal (cbr :: rest.take m) ≠ 0
                  rw [braceBal_cons, show braceDelta cbr = -1 from rfl]
                  simp only [List.length_cons] at this ⊢
                  push_cast at this ⊢
                  omega
              · rw [hrec, heq]
      · have hrec : blockLoop stk (c :: rest) = c :: blockLoop stk rest := by
          simp [blockLoop, hco, hcc, hst]
        have hd0 : braceDelta c = 0 := by
          simp [braceDelta, hco, hcc]
        rcases ih stk hst with ⟨n, hn0, hnle, hbal, hmin, heq⟩ | ⟨hall, heq⟩
        · left
          refine ⟨n + 1, by omega, by simp; omega, ?_, ?_, ?_⟩
          · show (stk.length : Int) + braceBal (c :: rest.take n) = 0
            rw [braceBal_cons, hd0]
            omega
          · intro m hm
            cases m with
            | zero =>
              show 0 < (stk.length : Int) + braceBal []
              show 0 < (stk.length : Int) + 0
              omega
            | succ m' =>
              have hmlt : m' < n := by omega
              have := hmin m' hmlt
              show 0 < (stk.length : Int) + braceBal (c :: rest.take m')
              rw [braceBal_cons, hd0]
              omega
          · rw [hrec, heq]
            rfl
        · right
          constructor
          · intro n hn
            cases n with
            | zero =>
              show (stk.length : Int) + braceBal [] ≠ 0
              show (stk.length : Int) + 0 ≠ 0
              omega
            | succ m =>
              have hm : m ≤ rest.length := by simpa using hn
              have := hall m hm
              show (stk.length : Int) + braceBal (c :: rest.take m) ≠ 0
              rw [braceBal_cons, hd0]
              omega
          · rw [hrec, heq]

/-- C4: for every text and start offset at which the character is an opening
brace, the block extractor returns the minimal prefix of the remaining text
whose brace balance returns to zero, every shorter nonempty prefix having
positive balance; and when no such balanced prefix exists it returns the whole
remainder of the text. -/
theorem c4_extract_block : ∀ (content : List Char) (start_index : Nat),
    (content.drop start_index).head? = some obr →
    ((∃ n, 0 < n ∧ n ≤ (content.drop start_index).length ∧
        braceBal ((content.drop start_index).take n) = 0 ∧
        (∀ m, 0 < m → m < n → 0 < braceBal ((content.drop start_index).take m)) ∧
        _extract_block content start_index = (content.drop start_index).take n) ∨
      ((∀ n, 0 < n → n ≤ (content.drop start_index).length →
          braceBal ((content.drop start_index).take n) ≠ 0) ∧
        _extract_block content start_index = content.drop start_index)) := by
  intro content start_index hhead
  unfold _extract_block
  cases hdrop : content.drop start_index with
  | nil => rw [hdrop] at hhead; simp at hhead
  | cons c rest =>
    rw [hdrop] at hhead
    have hc : c = obr := by
      injection hhead with h
    subst hc
    have hrec : blockLoop [] (obr :: rest) = obr :: blockLoop [obr] rest := by
      simp [blockLoop]
    rcases blockLoop_spec rest [obr] (by simp) with ⟨n, hn0, hnle, hbal, hmin, heq⟩ | ⟨hall, heq⟩
    · left
      refine ⟨n + 1, by omega, by simp; omega, ?_, ?_, ?_⟩
      · show braceBal (obr :: rest.take n) = 0
        rw [braceBal_cons, show braceDelta obr = 1 from rfl]
        simp only [List.length_singleton] at hbal
        push_cast at hbal
        omega
      · intro m hm0 hmn
        cases m with
        | zero => omega
        | succ m' =>
          have hmlt : m' < n := by omega
          have := hmin m' hmlt
          show 0 < braceBal (obr :: rest.take m')
          rw [braceBal_cons, show braceDelta obr = 1 from rfl]
          simp only [List.length_singleton] at this
          push_cast at this
          omega
      · rw [hrec, heq]
        rfl
    · right
      constructor
      · intro n hn0 hnle
        cases n with
        | zero => omega
        | succ m =>
          have hm : m ≤ rest.length := by simpa using hnle
          have := hall m hm
          show braceBal (obr :: rest.take m) ≠ 0
          rw [braceBal_cons, show braceDelta obr = 1 from rfl]
          simp only [List.length_singleton] at this
          push_cast at this
          omega
      · rw [hrec, heq]

/-- C4 witness: the theorem applied at offset one of a concrete text with a
nested block, and at a concrete text with an unmatched opening brace. -/
theorem c4_witness :
    ((("x\x7ba\x7b\x7db\x7dz").data.drop 1).head? = some obr) ∧
    ((∃ n, 0 < n ∧ n ≤ (("x\x7ba\x7b\x7db\x7dz").data.drop 1).length ∧
        braceBal ((("x\x7ba\x7b\x7db\x7dz").data.drop 1).take n) = 0 ∧
        (∀ m, 0 < m → m < n → 0 < braceBal ((("x\x7ba\x7b\x7db\x7dz").data.drop 1).take m)) ∧
        _extract_block (("x\x7ba\x7b\x7db\x7dz").data) 1 =
          (("x\x7ba\x7b\x7db\x7dz").data.drop 1).take n) ∨
      ((∀ n, 0 < n → n ≤ (("x\x7ba\x7b\x7db\x7dz").data.drop 1).length →
          braceBal ((("x\x7ba\x7b\x7db\x7dz").data.drop 1).take n) ≠ 0) ∧
        _extract_block (("x\x7ba\x7b\x7db\x7dz").data) 1 = ("x\x7ba\x7b\x7db\x7dz").data.drop 1)) :=
  ⟨rfl, c4_extract_block (("x\x7ba\x7b\x7db\x7dz").data) 1 rfl⟩

theorem lookA_append {α : Type} (l m : List (String × α)) (k : String) :
    lookA (l ++ m) k = match lookA l k with | some v => some v | none => lookA m k := by
  induction l with
  | nil => rfl
  | cons p l ih =>
    obtain ⟨k', v⟩ := p
    by_cases h : k' = k
    · simp [lookA, h]
    · simp [lookA, h, ih]

theorem upsert_keep {g : Graph} {k' : String} {b : NodeAttrs} (k : String) (a : NodeAttrs)
    (h : lookupNode g k' = some b) : lookupNode (upsertNode g k a) k' = some b := by
  unfold upsertNode
  cases hl : lookupNode g k with
  | some _ => exact h
  | none =>
    show lookA (g.nodes ++ [(k, a)]) k' = some b
    rw [lookA_append]
    unfold lookupNode at h
    rw [h]

theorem upsert_has (g : Graph) (k : String) (a : NodeAttrs) :
    hasNodeB (upsertNode g k a) k = true := by
  unfold hasNodeB upsertNode
  cases hl : lookupNode g k with
  | some _ => simp [lookupNode] at hl ⊢; rw [hl]; rfl
  | none =>
    show (lookA (g.nodes ++ [(k, a)]) k).isSome = true
    rw [lookA_append]
    unfold lookupNode at hl
    rw [hl]
    simp [lookA]

theorem keep_has {st st' : St} {k : String} (h : keepRel st st')
    (hk : hasNodeB st.graph k = true) : hasNodeB st'.graph k = true := by
  unfold hasNodeB at hk ⊢
  cases hl : lookupNode st.graph k with
  | none => rw [hl] at hk; simp at hk
  | some a => rw [h.1 k a hl]; rfl

theorem upsert_ok {g : Graph} {k : String} {a : NodeAttrs}
    (hg : okNodes g) (ha : okAttrs a) : okNodes (upsertNode g k a) := by
  unfold upsertNode
  cases hl : lookupNode g k with
  | some _ => exact hg
  | none =>
    intro p hp
    simp at hp
    rcases hp with hp | hp
    · exact hg p hp
    · rw [hp]
      exact ha

theorem addEdge_nodes_of_has {g : Graph} {u v : String} (r : String)
    (hu : hasNodeB g u = true) (hv : hasNodeB g v = true) :
    (addEdge g u v r).nodes = g.nodes := by
  unfold hasNodeB at hu hv
  cases hlu : lookupNode g u with
  | none => rw [hlu] at hu; simp at hu
  | some _ =>
    have h1 : upsertNode g u {} = g := by unfold upsertNode; rw [hlu]
    cases hlv : lookupNode g v with
    | none => rw [hlv] at hv; simp at hv
    | some _ =>
      have h2 : upsertNode g v {} = g := by unfold upsertNode; rw [hlv]
      unfold addEdge
      dsimp only
      rw [h1, h2]

theorem addEdge_keep {g : Graph} {k : String} {b : NodeAttrs} (u v r : String)
    (h : lookupNode g k = some b) : lookupNode (addEdge g u v r) k = some b := by
  unfold addEdge
  exact upsert_keep v {} (upsert_keep u {} h)

theorem addEdge_ok {g : Graph} {u v : String} (r : String) (hg : okNodes g)
    (hu : hasNodeB g u = true) (hv : hasNodeB g v = true) :
    okNodes (addEdge g u v r) := by
  intro p hp
  rw [show (addEdge g u v r).nodes = g.nodes from addEdge_nodes_of_has r hu hv] at hp
  exact hg p hp

theorem keepRel_refl (st : St) : keepRel st st :=
  ⟨fun _ _ h => h, fun _ h => h⟩

theorem keepRel_trans {a b c : St} (h1 : keepRel a b) (h2 : keepRel b c) : keepRel a c :=
  ⟨fun k x h => h2.1 k x (h1.1 k x h), fun p h => h2.2 p (h1.2 p h)⟩

theorem keepRel_of_eq {st st' : St} (h1 : st'.graph = st.graph)
    (h2 : st'.analyzed_files = st.analyzed_files) : keepRel st st' :=
  ⟨fun k a h => by rw [h1]; exact h, fun p h => by rw [h2]; exact h⟩

theorem upsertSt_keep (st : St) (k : String) (a : NodeAttrs) :
    keepRel st (upsertSt st k a) :=
  ⟨fun k' b h => upsert_keep k a h, fun _ h => h⟩

theorem addEdgeSt_keep (st : St) (u v r : String) : keepRel st (addEdgeSt st u v r) :=
  ⟨fun k b h => addEdge_keep u v r h, fun _ h => h⟩

theorem foldl_rel {α σ : Type} (R : σ → σ → Prop) (hrefl : ∀ s, R s s)
    (htrans : ∀ a b c, R a b → R b c → R a c) (f : σ → α → σ)
    (h : ∀ s a, R s (f s a)) : ∀ (l : List α) (s : σ), R s (l.foldl f s) := by
  intro l
  induction l with
  | nil => intro s; exact hrefl s
  | cons a l ih => intro s; exact htrans _ _ _ (h s a) (ih (f s a))

theorem foldl_inv {α σ : Type} (Q : σ → Prop) (f : σ → α → σ)
    (h : ∀ s a, Q s → Q (f s a)) : ∀ (l : List α) (s : σ), Q s → Q (l.foldl f s) := by
  intro l
  induction l with
  | nil => intro s hq; exact hq
  | cons a l ih => intro s hq; exact ih (f s a) (h s a hq)

theorem analyzed_grow_keep (st : St) (p : String) :
    keepRel st { st with analyzed_files := st.analyzed_files ++ [p] } :=
  ⟨fun _ _ h => h, fun _ h => List.mem_append_left _ h⟩

theorem usingBody_keep (fn : String) (st : St) (u : UsingM) :
    keepRel st (usingBody fn st u) := by
  unfold usingBody
  dsimp only
  split
  · exact ⟨fun k a h => addEdge_keep _ _ _ (upsert_keep _ _ h), fun p h => h⟩
  · exact ⟨fun k a h => addEdge_keep _ _ _ (upsert_keep _ _ h), fun p h => h⟩

theorem _process_usings_keep (content : List Char) (fn : String) (st : St) :
    keepRel st (_process_usings content fn st) :=
  foldl_rel keepRel keepRel_refl (fun _ _ _ => keepRel_trans) (usingBody fn)
    (fun s a => usingBody_keep fn s a) _ st

theorem methodBody_keep (cn : String) (st : St) (m : MethodM) :
    keepRel st (methodBody cn st m) :=
  ⟨fun k a h => addEdge_keep _ _ _ (upsert_keep _ _ h), fun p h => h⟩

theorem _process_methods_keep (content : List Char) (cn : String) (st : St) :
    keepRel st (_process_methods content cn st) :=
  foldl_rel keepRel keepRel_refl (fun _ _ _ => keepRel_trans) (methodBody cn)
    (fun s a => methodBody_keep cn s a) _ st

theorem propertyBody_keep (cn : String) (st : St) (m : PropertyM) :
    keepRel st (propertyBody cn st m) :=
  ⟨fun k a h => addEdge_keep _ _ _ (upsert_keep _ _ h), fun p h => h⟩

theorem _process_properties_keep (content : List Char) (cn : String) (st : St) :
    keepRel st (_process_properties content cn st) :=
  foldl_rel keepRel keepRel_refl (fun _ _ _ => keepRel_trans) (propertyBody cn)
    (fun s a => propertyBody_keep cn s a) _ st

theorem eventBody_keep (cn : String) (st : St) (m : EventM) :
    keepRel st (eventBody cn st m) :=
  ⟨fun k a h => addEdge_keep _ _ _ (upsert_keep _ _ h), fun p h => h⟩

theorem _process_events_keep (content : List Char) (cn : String) (st : St) :
    keepRel st (_process_events content cn st) :=
  foldl_rel keepRel keepRel_refl (fun _ _ _ => keepRel_trans) (eventBody cn)
    (fun s a => eventBody_keep cn s a) _ st

theorem fieldBody_keep (cn : String) (st : St) (m : FieldM) :
    keepRel st (fieldBody cn st m) :=
  ⟨fun k a h => addEdge_keep _ _ _ (upsert_keep _ _ h), fun p h => h⟩

theorem _process_fields_keep (content : List Char) (cn : String) (st : St) :
    keepRel st (_process_fields content cn st) :=
  foldl_rel keepRel keepRel_refl (fun _ _ _ => keepRel_trans) (fieldBody cn)
    (fun s a => fieldBody_keep cn s a) _ st

theorem inhBody_keep (kl tn rel cn : String) (st : St) (b : List Char) :
    keepRel st (inhBody kl tn rel cn st b) :=
  ⟨fun k a h => addEdge_keep _ _ _ (upsert_keep _ _ h), fun p h => h⟩

theorem classMatchBody_keep (pn : String) (st : St) (cm : ClassM) :
    keepRel st (classMatchBody pn st cm) := by
  unfold classMatchBody
  dsimp only
  cases hinh : cm.inh with
  | none =>
    dsimp only
    refine keepRel_trans ?_ (_process_fields_keep _ _ _)
    refine keepRel_trans ?_ (_process_events_keep _ _ _)
    refine keepRel_trans ?_ (_process_properties_keep _ _ _)
    refine keepRel_trans ?_ (_process_methods_keep _ _ _)
    exact ⟨fun k a h => addEdge_keep _ _ _ (upsert_keep _ _ h), fun p h => h⟩
  | some i =>
    dsimp only
    refine keepRel_trans ?_ (foldl_rel keepRel keepRel_refl (fun _ _ _ => keepRel_trans) _
      (fun s b => inhBody_keep _ _ _ _ s b) _ _)
    refine keepRel_trans ?_ (_process_fields_keep _ _ _)
    refine keepRel_trans ?_ (_process_events_keep _ _ _)
    refine keepRel_trans ?_ (_process_properties_keep _ _ _)
    refine keepRel_trans ?_ (_process_methods_keep _ _ _)
    exact ⟨fun k a h => addEdge_keep _ _ _ (upsert_keep _ _ h), fun p h => h⟩

theorem _process_classes_keep (content : List Char) (pn : String) (st : St) :
    keepRel st (_process_classes content pn st) :=
  foldl_rel keepRel keepRel_refl (fun _ _ _ => keepRel_trans) (classMatchBody pn)
    (fun s a => classMatchBody_keep pn s a) _ st

theorem ifaceMethodBody_keep (cn : String) (st : St) (m : IfaceMethodM) :
    keepRel st (ifaceMethodBody cn st m) :=
  ⟨fun k a h => addEdge_keep _ _ _ (upsert_keep _ _ h), fun p h => h⟩

theorem ifacePropBody_keep (cn : String) (st : St) (m : IfacePropM) :
    keepRel st (ifacePropBody cn st m) :=
  ⟨fun k a h => addEdge_keep _ _ _ (upsert_keep _ _ h), fun p h => h⟩

theorem _process_interface_members_keep (content : List Char) (cn : String) (st : St) :
    keepRel st (_process_interface_members content cn st) := by
  unfold _process_interface_members
  dsimp only
  refine keepRel_trans ?_ (foldl_rel keepRel keepRel_refl (fun _ _ _ => keepRel_trans)
    (ifacePropBody cn) (fun s a => ifacePropBody_keep cn s a) _ _)
  exact foldl_rel keepRel keepRel_refl (fun _ _ _ => keepRel_trans) (ifaceMethodBody cn)
    (fun s a => ifaceMethodBody_keep cn s a) _ st

theorem interfaceMatchBody_keep (pn : String) (st : St) (cm : ClassM) :
    keepRel st (interfaceMatchBody pn st cm) := by
  unfold interfaceMatchBody
  dsimp only
  cases hinh : cm.inh with
  | none =>
    dsimp only
    refine keepRel_trans ?_ (_process_interface_members_keep _ _ _)
    exact ⟨fun k a h => addEdge_keep _ _ _ (upsert_keep _ _ h), fun p h => h⟩
  | some i =>
    dsimp only
    refine keepRel_trans ?_ (foldl_rel keepRel keepRel_refl (fun _ _ _ => keepRel_trans) _
      (fun s b => inhBody_keep _ _ _ _ s b) _ _)
    refine keepRel_trans ?_ (_process_interface_members_keep _ _ _)
    exact ⟨fun k a h => addEdge_keep _ _ _ (upsert_keep _ _ h), fun p h => h⟩

theorem _process_interfaces_keep (content : List Char) (pn : String) (st : St) :
    keepRel st (_process_interfaces content pn st) :=
  foldl_rel keepRel keepRel_refl (fun _ _ _ => keepRel_trans) (interfaceMatchBody pn)
    (fun s a => interfaceMatchBody_keep pn s a) _ st

theorem enumMemberBody_keep (en : String) (st : St) (m : List Char) :
    keepRel st (enumMemberBody en st m) :=
  ⟨fun k a h => addEdge_keep _ _ _ (upsert_keep _ _ h), fun p h => h⟩

theorem enumBody_keep (pn : String) (st : St) (em : EnumM) :
    keepRel st (enumBody pn st em) := by
  unfold enumBody
  dsimp only
  refine keepRel_trans ?_ (foldl_rel keepRel keepRel_refl (fun _ _ _ => keepRel_trans) _
    (fun s b => enumMemberBody_keep _ s b) _ _)
  exact ⟨fun k a h => addEdge_keep _ _ _ (upsert_keep _ _ h), fun p h => h⟩

theorem _process_enums_keep (content : List Char) (pn : String) (st : St) :
    keepRel st (_process_enums content pn st) :=
  foldl_rel keepRel keepRel_refl (fun _ _ _ => keepRel_trans) (enumBody pn)
    (fun s a => enumBody_keep pn s a) _ st

theorem structMatchBody_keep (pn : String) (st : St) (cm : ClassM) :
    keepRel st (structMatchBody pn st cm) := by
  unfold structMatchBody
  dsimp only
  cases hinh : cm.inh with
  | none =>
    dsimp only
    refine keepRel_trans ?_ (_process_fields_keep _ _ _)
    refine keepRel_trans ?_ (_process_properties_keep _ _ _)
    refine keepRel_trans ?_ (_process_methods_keep _ _ _)
    exact ⟨fun k a h => addEdge_keep _ _ _ (upsert_keep _ _ h), fun p h => h⟩
  | some i =>
    dsimp only
    refine keepRel_trans ?_ (foldl_rel keepRel keepRel_refl (fun _ _ _ => keepRel_trans) _
      (fun s b => inhBody_keep _ _ _ _ s b) _ _)
    refine keepRel_trans ?_ (_process_fields_keep _ _ _)
    refine keepRel_trans ?_ (_process_properties_keep _ _ _)
    refine keepRel_trans ?_ (_process_methods_keep _ _ _)
    exact ⟨fun k a h => addEdge_keep _ _ _ (upsert_keep _ _ h), fun p h => h⟩

theorem _process_structs_keep (content : List Char) (pn : String) (st : St) :
    keepRel st (_process_structs content pn st) :=
  foldl_rel keepRel keepRel_refl (fun _ _ _ => keepRel_trans) (structMatchBody pn)
    (fun s a => structMatchBody_keep pn s a) _ st

theorem namespaceBody_keep (fn : String) (st : St) (nsm : NamespaceM) :
    keepRel st (namespaceBody fn st nsm) := by
  unfold namespaceBody
  dsimp only
  refine keepRel_trans ?_ (_process_structs_keep _ _ _)
  refine keepRel_trans ?_ (_process_enums_keep _ _ _)
  refine keepRel_trans ?_ (_process_interfaces_keep _ _ _)
  refine keepRel_trans ?_ (_process_classes_keep _ _ _)
  exact ⟨fun k a h => addEdge_keep _ _ _ (upsert_keep _ _ h), fun p h => h⟩

theorem _process_namespaces_keep (content : List Char) (fn : String) (st : St) :
    keepRel st (_process_namespaces content fn st) :=
  foldl_rel keepRel keepRel_refl (fun _ _ _ => keepRel_trans) (namespaceBody fn)
    (fun s a => namespaceBody_keep fn s a) _ st

theorem _process_file_keep (path content : String) (st : St) :
    keepRel st (_process_file path content st) := by
  unfold _process_file
  split
  · exact keepRel_refl st
  · dsimp only
    refine keepRel_trans ?_ (_process_namespaces_keep _ _ _)
    refine keepRel_trans ?_ (_process_usings_keep _ _ _)
    exact ⟨fun k a h => upsert_keep _ _ h, fun p h => List.mem_append_left _ h⟩

theorem depBody_keep (fn rel : String) (st : St) (dm : DepM) :
    keepRel st (depBody fn rel st dm) :=
  ⟨fun k a h => addEdge_keep _ _ _ (upsert_keep _ _ h), fun p h => h⟩

theorem lockDepBody_keep (fn : String) (st : St) (d : String × String) :
    keepRel st (lockDepBody fn st d) :=
  ⟨fun k a h => addEdge_keep _ _ _ (upsert_keep _ _ h), fun p h => h⟩

theorem _process_dependency_file_keep (jd : String → Option (List (String × String)))
    (path content : String) (st : St) :
    keepRel st (_process_dependency_file jd path content st) := by
  unfold _process_dependency_file
  split
  · exact keepRel_refl st
  · dsimp only
    have hbase : ∀ st' : St, st'.graph = upsertNode { st with
        analyzed_files := st.analyzed_files ++ [path] }.graph
        (("Dependency File: ") ++ path)
        { type_ := some ("dependency_file"), path := some path } →
        st'.analyzed_files = st.analyzed_files ++ [path] → keepRel st st' := by
      intro st' h1 h2
      refine ⟨fun k a h => ?_, fun p h => ?_⟩
      · rw [h1]; exact upsert_keep _ _ h
      · rw [h2]; exact List.mem_append_left _ h
    split
    · refine keepRel_trans ?_ (foldl_rel keepRel keepRel_refl (fun _ _ _ => keepRel_trans) _
        (fun s a => depBody_keep _ _ s a) _ _)
      exact hbase _ rfl rfl
    · split
      · refine keepRel_trans ?_ (foldl_rel keepRel keepRel_refl (fun _ _ _ => keepRel_trans) _
          (fun s a => depBody_keep _ _ s a) _ _)
        exact hbase _ rfl rfl
      · split
        · cases hj : jd content with
          | none => exact hbase _ rfl rfl
          | some deps =>
            refine keepRel_trans ?_ (foldl_rel keepRel keepRel_refl (fun _ _ _ => keepRel_trans) _
              (fun s a => lockDepBody_keep _ s a) _ _)
            exact hbase _ rfl rfl
        · exact hbase _ rfl rfl

theorem processUnit_keep (jd : String → Option (List (String × String)))
    (st : St) (u : String × String) : keepRel st (processUnit jd st u) := by
  unfold processUnit
  split
  · exact _process_file_keep _ _ _
  · split
    · exact _process_dependency_file_keep _ _ _ _
    · exact keepRel_refl st

theorem analyze_codebase_keep (jd : String → Option (List (String × String)))
    (units : List (String × String)) (st : St) :
    keepRel st (analyze_codebase jd units st) :=
  foldl_rel keepRel keepRel_refl (fun _ _ _ => keepRel_trans) (processUnit jd)
    (fun s a => processUnit_keep jd s a) _ st

theorem upsert_has_mono {g : Graph} {k : String} (k' : String) (a : NodeAttrs)
    (h : hasNodeB g k = true) : hasNodeB (upsertNode g k' a) k = true := by
  unfold hasNodeB at h ⊢
  cases hl : lookupNode g k with
  | none => rw [hl] at h; simp at h
  | some b => rw [upsert_keep k' a hl]; rfl

theorem addEdge_has_mono {g : Graph} {k : String} (u v r : String)
    (h : hasNodeB g k = true) : hasNodeB (addEdge g u v r) k = true := by
  unfold hasNodeB at h ⊢
  cases hl : lookupNode g k with
  | none => rw [hl] at h; simp at h
  | some b => rw [addEdge_keep u v r hl]; rfl

theorem okAttrs_of_name {a : NodeAttrs} (ht : a.type_.isSome = true)
    (hf1 : a.type_ ≠ some ("file")) (hf2 : a.type_ ≠ some ("dependency_file"))
    (hn : a.name.isSome = true) : okAttrs a := by
  refine ⟨ht, ?_, fun _ _ => hn⟩
  intro h
  rcases h with h | h
  · exact absurd h hf1
  · exact absurd h hf2

theorem okAttrs_file {a : NodeAttrs} (ht : a.type_ = some ("file"))
    (hp : a.path.isSome = true) : okAttrs a := by
  refine ⟨by rw [ht]; rfl, fun _ => hp, fun h1 _ => absurd ht h1⟩

theorem okAttrs_depfile {a : NodeAttrs} (ht : a.type_ = some ("dependency_file"))
    (hp : a.path.isSome = true) : okAttrs a := by
  refine ⟨by rw [ht]; rfl, fun _ => hp, fun _ h2 => absurd ht h2⟩

theorem keysOf_map_update {α : Type} (l : List (String × α)) (k : String) (v : α) :
    keysOf (l.map (fun p => if p.1 == k then (k, v) else p)) = keysOf l := by
  induction l with
  | nil => rfl
  | cons p l ih =>
    have hh : (if p.1 == k then (k, v) else p).1 = p.1 := by
      by_cases hb : p.1 == k
      · rw [if_pos hb]
        exact (show p.1 = k by simpa using hb).symm
      · rw [if_neg hb]
    simp only [keysOf, List.map_cons] at ih ⊢
    rw [hh, ih]

theorem any_keysOf {α : Type} (l : List (String × α)) (k : String) :
    l.any (fun p => p.1 == k) = (keysOf l).any (fun x => x == k) := by
  induction l with
  | nil => rfl
  | cons p l ih => simp [keysOf, ih]

theorem keysOf_updateAssoc {α : Type} (l : List (String × α)) (k : String) (v : α) :
    keysOf (updateAssoc l k v) =
      if (keysOf l).any (fun x => x == k) then keysOf l else keysOf l ++ [k] := by
  unfold updateAssoc
  rw [any_keysOf]
  by_cases hb : (keysOf l).any (fun x => x == k)
  · rw [if_pos hb, if_pos hb]
    exact keysOf_map_update l k v
  · rw [if_neg hb, if_neg hb]
    unfold keysOf
    simp

theorem keysOf_updateAssoc_both {α β : Type} (l1 : List (String × α)) (l2 : List (String × β))
    (k : String) (v1 : α) (v2 : β) (h : keysOf l1 = keysOf l2) :
    keysOf (updateAssoc l1 k v1) = keysOf (updateAssoc l2 k v2) := by
  rw [keysOf_updateAssoc, keysOf_updateAssoc, h]

theorem usingBody_good (fn : String) (st : St) (u : UsingM)
    (hg : GoodSt st) (hfn : hasNodeB st.graph fn = true) : GoodSt (usingBody fn st u) := by
  unfold usingBody
  dsimp only
  have hA : okAttrs { type_ := some ("namespace"), name := some (String.mk u.ns) } :=
    okAttrs_of_name rfl (by simp) (by simp) rfl
  split
  · exact ⟨addEdge_ok _ (upsert_ok hg.1 hA) (upsert_has_mono _ _ hfn) (upsert_has _ _ _), hg.2⟩
  · exact ⟨addEdge_ok _ (upsert_ok hg.1 hA) (upsert_has_mono _ _ hfn) (upsert_has _ _ _), hg.2⟩

theorem _process_usings_goodh (content : List Char) (fn : String) (st : St)
    (h : GoodSt st ∧ hasNodeB st.graph fn = true) :
    GoodSt (_process_usings content fn st) ∧
      hasNodeB (_process_usings content fn st).graph fn = true := by
  unfold _process_usings
  exact foldl_inv (fun s => GoodSt s ∧ hasNodeB s.graph fn = true) (usingBody fn)
    (fun s a hq => ⟨usingBody_good fn s a hq.1 hq.2,
      keep_has (usingBody_keep fn s a) hq.2⟩) _ st h

theorem methodBody_good (cn : String) (st : St) (m : MethodM)
    (hg : GoodSt st) (hcn : hasNodeB st.graph cn = true) : GoodSt (methodBody cn st m) := by
  refine ⟨?_, ?_⟩
  · exact addEdge_ok _ (upsert_ok hg.1 (okAttrs_of_name rfl (by simp) (by simp) rfl))
      (upsert_has_mono _ _ hcn) (upsert_has _ _ _)
  · exact keysOf_updateAssoc_both _ _ _ _ _ hg.2

theorem _process_methods_goodh (content : List Char) (cn : String) (st : St)
    (h : GoodSt st ∧ hasNodeB st.graph cn = true) :
    GoodSt (_process_methods content cn st) ∧
      hasNodeB (_process_methods content cn st).graph cn = true := by
  unfold _process_methods
  exact foldl_inv (fun s => GoodSt s ∧ hasNodeB s.graph cn = true) (methodBody cn)
    (fun s a hq => ⟨methodBody_good cn s a hq.1 hq.2,
      keep_has (methodBody_keep cn s a) hq.2⟩) _ st h

theorem propertyBody_good (cn : String) (st : St) (m : PropertyM)
    (hg : GoodSt st) (hcn : hasNodeB st.graph cn = true) : GoodSt (propertyBody cn st m) :=
  ⟨addEdge_ok _ (upsert_ok hg.1 (okAttrs_of_name rfl (by simp) (by simp) rfl))
    (upsert_has_mono _ _ hcn) (upsert_has _ _ _), hg.2⟩

theorem _process_properties_goodh (content : List Char) (cn : String) (st : St)
    (h : GoodSt st ∧ hasNodeB st.graph cn = true) :
    GoodSt (_process_properties content cn st) ∧
      hasNodeB (_process_properties content cn st).graph cn = true := by
  unfold _process_properties
  exact foldl_inv (fun s => GoodSt s ∧ hasNodeB s.graph cn = true) (propertyBody cn)
    (fun s a hq => ⟨propertyBody_good cn s a hq.1 hq.2,
      keep_has (propertyBody_keep cn s a) hq.2⟩) _ st h

theorem eventBody_good (cn : String) (st : St) (m : EventM)
    (hg : GoodSt st) (hcn : hasNodeB st.graph cn = true) : GoodSt (eventBody cn st m) :=
  ⟨addEdge_ok _ (upsert_ok hg.1 (okAttrs_of_name rfl (by simp) (by simp) rfl))
    (upsert_has_mono _ _ hcn) (upsert_has _ _ _), hg.2⟩

theorem _process_events_goodh (content : List Char) (cn : String) (st : St)
    (h : GoodSt st ∧ hasNodeB st.graph cn = true) :
    GoodSt (_process_events content cn st) ∧
      hasNodeB (_process_events content cn st).graph cn = true := by
  unfold _process_events
  exact foldl_inv (fun s => GoodSt s ∧ hasNodeB s.graph cn = true) (eventBody cn)
    (fun s a hq => ⟨eventBody_good cn s a hq.1 hq.2,
      keep_has (eventBody_keep cn s a) hq.2⟩) _ st h

theorem fieldBody_good (cn : String) (st : St) (m : FieldM)
    (hg : GoodSt st) (hcn : hasNodeB st.graph cn = true) : GoodSt (fieldBody cn st m) :=
  ⟨addEdge_ok _ (upsert_ok hg.1 (okAttrs_of_name rfl (by simp) (by simp) rfl))
    (upsert_has_mono _ _ hcn) (upsert_has _ _ _), hg.2⟩

theorem _process_fields_goodh (content : List Char) (cn : String) (st : St)
    (h : GoodSt st ∧ hasNodeB st.graph cn = true) :
    GoodSt (_process_fields content cn st) ∧
      hasNodeB (_process_fields content cn st).graph cn = true := by
  unfold _process_fields
  exact foldl_inv (fun s => GoodSt s ∧ hasNodeB s.graph cn = true) (fieldBody cn)
    (fun s a hq => ⟨fieldBody_good cn s a hq.1 hq.2,
      keep_has (fieldBody_keep cn s a) hq.2⟩) _ st h

theorem inhBody_good (kl : String) (tn : String) (rel cn : String) (st : St) (b : List Char)
    (htn1 : (some tn : Option String) ≠ some ("file"))
    (htn2 : (some tn : Option String) ≠ some ("dependency_file"))
    (hg : GoodSt st) (hcn : hasNodeB st.graph cn = true) :
    GoodSt (inhBody kl tn rel cn st b) :=
  ⟨addEdge_ok _ (upsert_ok hg.1 (okAttrs_of_name rfl htn1 htn2 rfl))
    (upsert_has_mono _ _ hcn) (upsert_has _ _ _), hg.2⟩

theorem inhFold_goodh (kl : String) (tn : String) (rel cn : String)
    (htn1 : (some tn : Option String) ≠ some ("file"))
    (htn2 : (some tn : Option String) ≠ some ("dependency_file"))
    (l : List (List Char)) (st : St) (h : GoodSt st ∧ hasNodeB st.graph cn = true) :
    GoodSt (l.foldl (inhBody kl tn rel cn) st) ∧
      hasNodeB (l.foldl (inhBody kl tn rel cn) st).graph cn = true :=
  foldl_inv (fun s => GoodSt s ∧ hasNodeB s.graph cn = true) (inhBody kl tn rel cn)
    (fun s a hq => ⟨inhBody_good kl tn rel cn s a htn1 htn2 hq.1 hq.2,
      keep_has (inhBody_keep kl tn rel cn s a) hq.2⟩) l st h

theorem classMatchBody_good (pn : String) (st : St) (cm : ClassM)
    (hg : GoodSt st) (hpn : hasNodeB st.graph pn = true) : GoodSt (classMatchBody pn st cm) := by
  unfold classMatchBody
  dsimp only
  cases hinh : cm.inh with
  | none =>
    dsimp only
    refine (_process_fields_goodh _ _ _
      (_process_events_goodh _ _ _
        (_process_properties_goodh _ _ _
          (_process_methods_goodh _ _ _ ⟨⟨?_, ?_⟩, ?_⟩)))).1
    · exact addEdge_ok _ (upsert_ok hg.1 (okAttrs_of_name rfl (by simp) (by simp) rfl))
        (upsert_has_mono _ _ hpn) (upsert_has _ _ _)
    · exact hg.2
    · exact addEdge_has_mono _ _ _ (upsert_has _ _ _)
  | some i =>
    dsimp only
    refine (inhFold_goodh _ _ _ _ (by decide) (by decide) _ _
      (_process_fields_goodh _ _ _
        (_process_events_goodh _ _ _
          (_process_properties_goodh _ _ _
            (_process_methods_goodh _ _ _ ⟨⟨?_, ?_⟩, ?_⟩))))).1
    · exact addEdge_ok _ (upsert_ok hg.1 (okAttrs_of_name rfl (by simp) (by simp) rfl))
        (upsert_has_mono _ _ hpn) (upsert_has _ _ _)
    · exact hg.2
    · exact addEdge_has_mono _ _ _ (upsert_has _ _ _)

theorem _process_classes_goodh (content : List Char) (pn : String) (st : St)
    (h : GoodSt st ∧ hasNodeB st.graph pn = true) :
    GoodSt (_process_classes content pn st) ∧
      hasNodeB (_process_classes content pn st).graph pn = true := by
  unfold _process_classes
  exact foldl_inv (fun s => GoodSt s ∧ hasNodeB s.graph pn = true) (classMatchBody pn)
    (fun s a hq => ⟨classMatchBody_good pn s a hq.1 hq.2,
      keep_has (classMatchBody_keep pn s a) hq.2⟩) _ st h

theorem ifaceMethodBody_good (cn : String) (st : St) (m : IfaceMethodM)
    (hg : GoodSt st) (hcn : hasNodeB st.graph cn = true) : GoodSt (ifaceMethodBody cn st m) := by
  refine ⟨?_, ?_⟩
  · exact addEdge_ok _ (upsert_ok hg.1 (okAttrs_of_name rfl (by simp) (by simp) rfl))
      (upsert_has_mono _ _ hcn) (upsert_has _ _ _)
  · exact keysOf_updateAssoc_both _ _ _ _ _ hg.2

theorem ifacePropBody_good (cn : String) (st : St) (m : IfacePropM)
    (hg : GoodSt st) (hcn : hasNodeB st.graph cn = true) : GoodSt (ifacePropBody cn st m) :=
  ⟨addEdge_ok _ (upsert_ok hg.1 (okAttrs_of_name rfl (by simp) (by simp) rfl))
    (upsert_has_mono _ _ hcn) (upsert_has _ _ _), hg.2⟩

theorem _process_interface_members_goodh (content : List Char) (cn : String) (st : St)
    (h : GoodSt st ∧ hasNodeB st.graph cn = true) :
    GoodSt (_process_interface_members content cn st) ∧
      hasNodeB (_process_interface_members content cn st).graph cn = true := by
  unfold _process_interface_members
  dsimp only
  refine foldl_inv (fun s => GoodSt s ∧ hasNodeB s.graph cn = true) (ifacePropBody cn)
    (fun s a hq => ⟨ifacePropBody_good cn s a hq.1 hq.2,
      keep_has (ifacePropBody_keep cn s a) hq.2⟩) _ _ ?_
  exact foldl_inv (fun s => GoodSt s ∧ hasNodeB s.graph cn = true) (ifaceMethodBody cn)
    (fun s a hq => ⟨ifaceMethodBody_good cn s a hq.1 hq.2,
      keep_has (ifaceMethodBody_keep cn s a) hq.2⟩) _ st h

theorem interfaceMatchBody_good (pn : String) (st : St) (cm : ClassM)
    (hg : GoodSt st) (hpn : hasNodeB st.graph pn = true) :
    GoodSt (interfaceMatchBody pn st cm) := by
  unfold interfaceMatchBody
  dsimp only
  cases hinh : cm.inh with
  | none =>
    dsimp only
    refine (_process_interface_members_goodh _ _ _ ⟨⟨?_, ?_⟩, ?_⟩).1
    · exact addEdge_ok _ (upsert_ok hg.1 (okAttrs_of_name rfl (by simp) (by simp) rfl))
        (upsert_has_mono _ _ hpn) (upsert_has _ _ _)
    · exact hg.2
    · exact addEdge_has_mono _ _ _ (upsert_has _ _ _)
  | some i =>
    dsimp only
    refine (inhFold_goodh _ _ _ _ (by decide) (by decide) _ _
      (_process_interface_members_goodh _ _ _ ⟨⟨?_, ?_⟩, ?_⟩)).1
    · exact addEdge_ok _ (upsert_ok hg.1 (okAttrs_of_name rfl (by simp) (by simp) rfl))
        (upsert_has_mono _ _ hpn) (upsert_has _ _ _)
    · exact hg.2
    · exact addEdge_has_mono _ _ _ (upsert_has _ _ _)

theorem _process_interfaces_goodh (content : List Char) (pn : String) (st : St)
    (h : GoodSt st ∧ hasNodeB st.graph pn = true) :
    GoodSt (_process_interfaces content pn st) ∧
      hasNodeB (_process_interfaces content pn st).graph pn = true := by
  unfold _process_interfaces
  exact foldl_inv (fun s => GoodSt s ∧ hasNodeB s.graph pn = true) (interfaceMatchBody pn)
    (fun s a hq => ⟨interfaceMatchBody_good pn s a hq.1 hq.2,
      keep_has (interfaceMatchBody_keep pn s a) hq.2⟩) _ st h

theorem enumMemberBody_good (en : String) (st : St) (m : List Char)
    (hg : GoodSt st) (hen : hasNodeB st.graph en = true) : GoodSt (enumMemberBody en st m) :=
  ⟨addEdge_ok _ (upsert_ok hg.1 (okAttrs_of_name rfl (by simp) (by simp) rfl))
    (upsert_has_mono _ _ hen) (upsert_has _ _ _), hg.2⟩

theorem enumBody_good (pn : String) (st : St) (em : EnumM)
    (hg : GoodSt st) (hpn : hasNodeB st.graph pn = true) : GoodSt (enumBody pn st em) := by
  unfold enumBody
  dsimp only
  refine (foldl_inv (fun s => GoodSt s ∧
      hasNodeB s.graph (("Enum: ") ++ String.mk em.nm) = true) _
    (fun s a hq => ⟨enumMemberBody_good _ s a hq.1 hq.2,
      keep_has (enumMemberBody_keep _ s a) hq.2⟩) _ _ ⟨⟨?_, ?_⟩, ?_⟩).1
  · exact addEdge_ok _ (upsert_ok hg.1 (okAttrs_of_name rfl (by simp) (by simp) rfl))
      (upsert_has_mono _ _ hpn) (upsert_has _ _ _)
  · exact hg.2
  · exact addEdge_has_mono _ _ _ (upsert_has _ _ _)

theorem _process_enums_goodh (content : List Char) (pn : String) (st : St)
    (h : GoodSt st ∧ hasNodeB st.graph pn = true) :
    GoodSt (_process_enums content pn st) ∧
      hasNodeB (_process_enums content pn st).graph pn = true := by
  unfold _process_enums
  exact foldl_inv (fun s => GoodSt s ∧ hasNodeB s.graph pn = true) (enumBody pn)
    (fun s a hq => ⟨enumBody_good pn s a hq.1 hq.2,
      keep_has (enumBody_keep pn s a) hq.2⟩) _ st h

theorem structMatchBody_good (pn : String) (st : St) (cm : ClassM)
    (hg : GoodSt st) (hpn : hasNodeB st.graph pn = true) : GoodSt (structMatchBody pn st cm) := by
  unfold structMatchBody
  dsimp only
  cases hinh : cm.inh with
  | none =>
    dsimp only
    refine (_process_fields_goodh _ _ _
      (_process_properties_goodh _ _ _
        (_process_methods_goodh _ _ _ ⟨⟨?_, ?_⟩, ?_⟩))).1
    · exact addEdge_ok _ (upsert_ok hg.1 (okAttrs_of_name rfl (by simp) (by simp) rfl))
        (upsert_has_mono _ _ hpn) (upsert_has _ _ _)
    · exact hg.2
    · exact addEdge_has_mono _ _ _ (upsert_has _ _ _)
  | some i =>
    dsimp only
    refine (inhFold_goodh _ _ _ _ (by decide) (by decide) _ _
      (_process_fields_goodh _ _ _
        (_process_properties_goodh _ _ _
          (_process_methods_goodh _ _ _ ⟨⟨?_, ?_⟩, ?_⟩)))).1
    · exact addEdge_ok _ (upsert_ok hg.1 (okAttrs_of_name rfl (by simp) (by simp) rfl))
        (upsert_has_mono _ _ hpn) (upsert_has _ _ _)
    · exact hg.2
    · exact addEdge_has_mono _ _ _ (upsert_has _ _ _)

theorem _process_structs_goodh (content : List Char) (pn : String) (st : St)
    (h : GoodSt st ∧ hasNodeB st.graph pn = true) :
    GoodSt (_process_structs content pn st) ∧
      hasNodeB (_process_structs content pn st).graph pn = true := by
  unfold _process_structs
  exact foldl_inv (fun s => GoodSt s ∧ hasNodeB s.graph pn = true) (structMatchBody pn)
    (fun s a hq => ⟨structMatchBody_good pn s a hq.1 hq.2,
      keep_has (structMatchBody_keep pn s a) hq.2⟩) _ st h

theorem namespaceBody_good (fn : String) (st : St) (nsm : NamespaceM)
    (hg : GoodSt st) (hfn : hasNodeB st.graph fn = true) : GoodSt (namespaceBody fn st nsm) := by
  unfold namespaceBody
  dsimp only
  refine (_process_structs_goodh _ _ _
    (_process_enums_goodh _ _ _
      (_process_interfaces_goodh _ _ _
        (_process_classes_goodh _ _ _ ⟨⟨?_, ?_⟩, ?_⟩)))).1
  · exact addEdge_ok _ (upsert_ok hg.1 (okAttrs_of_name rfl (by simp) (by simp) rfl))
      (upsert_has_mono _ _ hfn) (upsert_has _ _ _)
  · exact hg.2
  · exact addEdge_has_mono _ _ _ (upsert_has _ _ _)

theorem _process_namespaces_goodh (content : List Char) (fn : String) (st : St)
    (h : GoodSt st ∧ hasNodeB st.graph fn = true) :
    GoodSt (_process_namespaces content fn st) ∧
      hasNodeB (_process_namespaces content fn st).graph fn = true := by
  unfold _process_namespaces
  exact foldl_inv (fun s => GoodSt s ∧ hasNodeB s.graph fn = true) (namespaceBody fn)
    (fun s a hq => ⟨namespaceBody_good fn s a hq.1 hq.2,
      keep_has (namespaceBody_keep fn s a) hq.2⟩) _ st h

theorem _process_file_good (path content : String) (st : St) (hg : GoodSt st) :
    GoodSt (_process_file path content st) := by
  unfold _process_file
  split
  · exact hg
  · dsimp only
    refine (_process_namespaces_goodh _ _ _
      (_process_usings_goodh _ _ _ ⟨⟨?_, ?_⟩, ?_⟩)).1
    · exact upsert_ok hg.1 (okAttrs_file rfl rfl)
    · exact hg.2
    · exact upsert_has _ _ _

theorem depBody_good (fn rel : String) (st : St) (dm : DepM)
    (hg : GoodSt st) (hfn : hasNodeB st.graph fn = true) : GoodSt (depBody fn rel st dm) :=
  ⟨addEdge_ok _ (upsert_ok hg.1 (okAttrs_of_name rfl (by simp) (by simp) rfl))
    (upsert_has_mono _ _ hfn) (upsert_has _ _ _), hg.2⟩

theorem lockDepBody_good (fn : String) (st : St) (d : String × String)
    (hg : GoodSt st) (hfn : hasNodeB st.graph fn = true) : GoodSt (lockDepBody fn st d) :=
  ⟨addEdge_ok _ (upsert_ok hg.1 (okAttrs_of_name rfl (by simp) (by simp) rfl))
    (upsert_has_mono _ _ hfn) (upsert_has _ _ _), hg.2⟩

theorem _process_dependency_file_good (jd : String → Option (List (String × String)))
    (path content : String) (st : St) (hg : GoodSt st) :
    GoodSt (_process_dependency_file jd path content st) := by
  unfold _process_dependency_file
  split
  · exact hg
  · dsimp only
    have hbase : GoodSt (upsertSt { st with analyzed_files := st.analyzed_files ++ [path] }
        (("Dependency File: ") ++ path)
        { type_ := some ("dependency_file"), path := some path }) ∧
        hasNodeB (upsertSt { st with analyzed_files := st.analyzed_files ++ [path] }
          (("Dependency File: ") ++ path)
          { type_ := some ("dependency_file"), path := some path }).graph
          (("Dependency File: ") ++ path) = true := by
      constructor
      · exact ⟨upsert_ok hg.1 (okAttrs_depfile rfl rfl), hg.2⟩
      · exact upsert_has _ _ _
    split
    · exact (foldl_inv (fun s => GoodSt s ∧
        hasNodeB s.graph (("Dependency File: ") ++ path) = true) _
        (fun s a hq => ⟨depBody_good _ _ s a hq.1 hq.2,
          keep_has (depBody_keep _ _ s a) hq.2⟩) _ _ hbase).1
    · split
      · exact (foldl_inv (fun s => GoodSt s ∧
          hasNodeB s.graph (("Dependency File: ") ++ path) = true) _
          (fun s a hq => ⟨depBody_good _ _ s a hq.1 hq.2,
            keep_has (depBody_keep _ _ s a) hq.2⟩) _ _ hbase).1
      · split
        · cases hj : jd content with
          | none => exact hbase.1
          | some deps =>
            exact (foldl_inv (fun s => GoodSt s ∧
              hasNodeB s.graph (("Dependency File: ") ++ path) = true) _
              (fun s a hq => ⟨lockDepBody_good _ s a hq.1 hq.2,
                keep_has (lockDepBody_keep _ s a) hq.2⟩) _ _ hbase).1
        · exact hbase.1

theorem processUnit_good (jd : String → Option (List (String × String)))
    (st : St) (u : String × String) (hg : GoodSt st) : GoodSt (processUnit jd st u) := by
  unfold processUnit
  split
  · exact _process_file_good _ _ _ hg
  · split
    · exact _process_dependency_file_good _ _ _ _ hg
    · exact hg

theorem initSt_good : GoodSt initSt :=
  ⟨fun p hp => absurd hp (List.not_mem_nil p), rfl⟩

theorem analyze_codebase_good (jd : String → Option (List (String × String)))
    (units : List (String × String)) (st : St) (hg : GoodSt st) :
    GoodSt (analyze_codebase jd units st) :=
  foldl_inv GoodSt (processUnit jd) (fun s a hq => processUnit_good jd s a hq) _ st hg


theorem upsert_edges (g : Graph) (k : String) (a : NodeAttrs) :
    (upsertNode g k a).edges = g.edges := by
  unfold upsertNode
  cases lookupNode g k <;> rfl

theorem addEdge_edges (g : Graph) (u v r : String) :
    (addEdge g u v r).edges = updE g.edges u v r := by
  unfold addEdge
  dsimp only
  rw [upsert_edges, upsert_edges]

theorem updE_pairs_mem (es : List (String × String × String)) (u v r : String)
    (h : (u, v) ∈ edgePairs es) : edgePairs (updE es u v r) = edgePairs es := by
  induction es with
  | nil => simp [edgePairs] at h
  | cons e rest ih =>
    by_cases hc : e.1 = u ∧ e.2.1 = v
    · unfold updE
      rw [if_pos hc]
      simp [edgePairs, hc.1, hc.2]
    · unfold updE
      rw [if_neg hc]
      have hm : (u, v) ∈ edgePairs rest := by
        simp [edgePairs] at h ⊢
        rcases h with h | h
        · exact absurd ⟨h.1.symm, h.2.symm⟩ hc
        · exact h
      exact congrArg (List.cons (e.1, e.2.1)) (ih hm)

theorem updE_pairs_not_mem (es : List (String × String × String)) (u v r : String)
    (h : (u, v) ∉ edgePairs es) : edgePairs (updE es u v r) = edgePairs es ++ [(u, v)] := by
  induction es with
  | nil => rfl
  | cons e rest ih =>
    by_cases hc : e.1 = u ∧ e.2.1 = v
    · exact absurd (by simp [edgePairs, hc.1, hc.2]) h
    · unfold updE
      rw [if_neg hc]
      have hm : (u, v) ∉ edgePairs rest := by
        intro hmem
        exact h (by simp [edgePairs] at hmem ⊢; exact Or.inr hmem)
      exact congrArg (List.cons (e.1, e.2.1)) (ih hm)

theorem updE_nodup (es : List (String × String × String)) (u v r : String)
    (h : (edgePairs es).Nodup) : (edgePairs (updE es u v r)).Nodup := by
  by_cases hm : (u, v) ∈ edgePairs es
  · rw [updE_pairs_mem es u v r hm]
    exact h
  · rw [updE_pairs_not_mem es u v r hm]
    rw [List.nodup_append]
    exact ⟨h, List.nodup_singleton _, by
      intro x hx hy
      simp at hy
      subst hy
      exact hm hx⟩

theorem addEdges_nodup (es : List (String × String × String)) :
    ∀ g : Graph, (edgePairs g.edges).Nodup → (edgePairs (addEdges g es).edges).Nodup := by
  induction es with
  | nil => intro g h; exact h
  | cons e rest ih =>
    intro g h
    have h1 : (edgePairs (addEdge g e.1 e.2.1 e.2.2).edges).Nodup := by
      rw [addEdge_edges]
      exact updE_nodup _ _ _ _ h
    exact ih _ h1

theorem lookupEdge_updE (es : List (String × String × String)) (u v r : String) :
    lookupEdge (updE es u v r) u v = some r := by
  induction es with
  | nil => simp [updE, lookupEdge]
  | cons e rest ih =>
    by_cases hc : e.1 = u ∧ e.2.1 = v
    · unfold updE
      rw [if_pos hc]
      unfold lookupEdge
      rw [if_pos ⟨rfl, rfl⟩]
    · unfold updE
      rw [if_neg hc]
      unfold lookupEdge
      rw [if_neg hc]
      exact ih

theorem _process_file_done (path content : String) (st : St) :
    path ∈ (_process_file path content st).analyzed_files := by
  unfold _process_file
  split
  next h => exact h
  next h =>
    dsimp only
    refine (_process_namespaces_keep _ _ _).2 _ ((_process_usings_keep _ _ _).2 _ ?_)
    simp [upsertSt]

theorem _process_dependency_file_done (jd : String → Option (List (String × String)))
    (path content : String) (st : St) :
    path ∈ (_process_dependency_file jd path content st).analyzed_files := by
  unfold _process_dependency_file
  split
  next h => exact h
  next h =>
    dsimp only
    have hbase : path ∈ (upsertSt { st with analyzed_files := st.analyzed_files ++ [path] }
        (("Dependency File: ") ++ path)
        { type_ := some ("dependency_file"), path := some path }).analyzed_files := by
      simp [upsertSt]
    split
    · exact (foldl_rel keepRel keepRel_refl (fun _ _ _ => keepRel_trans) _
        (fun s a => depBody_keep _ _ s a) _ _).2 _ hbase
    · split
      · exact (foldl_rel keepRel keepRel_refl (fun _ _ _ => keepRel_trans) _
          (fun s a => depBody_keep _ _ s a) _ _).2 _ hbase
      · split
        · cases hj : jd content with
          | none => exact hbase
          | some deps =>
            exact (foldl_rel keepRel keepRel_refl (fun _ _ _ => keepRel_trans) _
              (fun s a => lockDepBody_keep _ s a) _ _).2 _ hbase
        · exact hbase

theorem processUnit_done (jd : String → Option (List (String × String)))
    (st : St) (u : String × String) : unitDone u (processUnit jd st u) := by
  intro hsuf
  unfold processUnit
  split
  next h => exact _process_file_done _ _ _
  next h =>
    split
    next h2 => exact _process_dependency_file_done _ _ _ _
    next h2 =>
      simp only [Bool.or_eq_true, not_or] at h2
      rcases hsuf with h1 | h1 | h1 | h1
      · exact absurd h1 h
      · exact absurd h1 h2.1.1
      · exact absurd h1 h2.1.2
      · exact absurd h1 h2.2

theorem done_mono {st st' : St} (u : String × String)
    (hk : keepRel st st') (hd : unitDone u st) : unitDone u st' :=
  fun hsuf => hk.2 _ (hd hsuf)

theorem processUnit_stable (jd : String → Option (List (String × String)))
    (st : St) (u : String × String) (hd : unitDone u st) : processUnit jd st u = st := by
  unfold processUnit
  split
  next h =>
    have hmem : u.1 ∈ st.analyzed_files := hd (Or.inl h)
    unfold _process_file
    rw [if_pos hmem]
  next h =>
    split
    next h2 =>
      have hmem : u.1 ∈ st.analyzed_files := by
        apply hd
        simp only [Bool.or_eq_true] at h2
        rcases h2 with (h3 | h3) | h3
        · exact Or.inr (Or.inl h3)
        · exact Or.inr (Or.inr (Or.inl h3))
        · exact Or.inr (Or.inr (Or.inr h3))
      unfold _process_dependency_file
      rw [if_pos hmem]
    next h2 => rfl

theorem analyze_done (jd : String → Option (List (String × String))) :
    ∀ (units : List (String × String)) (st : St) (u : String × String),
      u ∈ units → unitDone u (analyze_codebase jd units st) := by
  intro units
  induction units with
  | nil => intro st u hu; exact absurd hu (List.not_mem_nil u)
  | cons v us ih =>
    intro st u hu
    rcases List.mem_cons.mp hu with h | h
    · subst h
      exact done_mono u (analyze_codebase_keep jd us _) (processUnit_done jd st u)
    · exact ih _ u h

theorem analyze_stable (jd : String → Option (List (String × String))) :
    ∀ (units : List (String × String)) (st : St),
      (∀ u ∈ units, unitDone u st) → analyze_codebase jd units st = st := by
  intro units
  induction units with
  | nil => intro st _; rfl
  | cons v us ih =>
    intro st h
    have h1 : processUnit jd st v = st :=
      processUnit_stable jd st v (h v (List.mem_cons_self v us))
    show analyze_codebase jd us (processUnit jd st v) = st
    rw [h1]
    exact ih st (fun u hu => h u (List.mem_cons_of_mem v hu))

/-- C1 counterexample: on two identically named classes Helper in two
different namespaces, each declaring a method Run, the pipeline produces a
single method node, because the class node is keyed by the simple class name
alone, and the class-methods mapping lists Run twice under the one collapsed
class key rather than separately per class. -/
theorem c1_counterexample :
    ((analyze_codebase jd0 [(("a.cs"), helperTwoNs)] initSt).graph.nodes.filter
        (fun p => p.2.type_ == some ("method"))).map Prod.fst =
      [("Method: Run (Class: Helper)")] ∧
    (analyze_codebase jd0 [(("a.cs"), helperTwoNs)] initSt).class_methods =
      [(("Class: Helper"), [("Run"), ("Run")])] := by
  decide

/-- C1: corrected form.  Method nodes are keyed by the method name and the
enclosing class node, but the class node itself is keyed by the simple class
name only, so identically named methods stay distinct exactly when the simple
class names differ: with a third namespace declaring class Other with method
Run, two distinct method nodes appear and class-methods lists Run under the
key of each distinct class node. -/
theorem c1_method_keyed_by_class_node :
    ((analyze_codebase jd0 [(("a.cs"), helperThreeNs)] initSt).graph.nodes.filter
        (fun p => p.2.type_ == some ("method"))).map Prod.fst =
      [("Method: Run (Class: Helper)"), ("Method: Run (Class: Other)")] ∧
    (analyze_codebase jd0 [(("a.cs"), helperThreeNs)] initSt).class_methods =
      [(("Class: Helper"), [("Run"), ("Run")]), (("Class: Other"), [("Run")])] := by
  decide

/-- C5: a node is created at most once per key: once a node with a given key
holds some attributes, any further pipeline step leaves those attributes
unchanged (first-write-wins); in particular a manifest with two
PackageReference entries for the same package name and different versions
yields exactly one dependency node carrying the first-encountered version. -/
theorem c5_node_first_write_wins (jd : String → Option (List (String × String)))
    (u : String × String) (st : St) (k : String) (a : NodeAttrs)
    (h : lookupNode st.graph k = some a) :
    lookupNode (processUnit jd st u).graph k = some a ∧
    lookupNode (analyze_codebase jd0 [(("p.csproj"), csprojDup)] initSt).graph
        ("Dependency: A") =
      some { type_ := some ("dependency"), name := some ("A"), version := some ("1.0") } ∧
    ((analyze_codebase jd0 [(("p.csproj"), csprojDup)] initSt).graph.nodes.filter
        (fun p => p.2.type_ == some ("dependency"))).length = 1 :=
  ⟨(processUnit_keep jd st u).1 k a h, by decide, by decide⟩

/-- C5 witness: the theorem applied at a concrete one-node state and a unit
that re-encounters nothing. -/
theorem c5_witness :
    lookupNode (processUnit jd0
        (upsertSt initSt ("K") { type_ := some ("class") }) (("a.cs"), (""))).graph ("K") =
      some { type_ := some ("class") } ∧
    lookupNode (analyze_codebase jd0 [(("p.csproj"), csprojDup)] initSt).graph
        ("Dependency: A") =
      some { type_ := some ("dependency"), name := some ("A"), version := some ("1.0") } ∧
    ((analyze_codebase jd0 [(("p.csproj"), csprojDup)] initSt).graph.nodes.filter
        (fun p => p.2.type_ == some ("dependency"))).length = 1 :=
  c5_node_first_write_wins jd0 (("a.cs"), ("")) _ ("K") _ (by decide)

/-- C6: the edge store is a simple directed graph: any sequence of edge
additions keeps at most one edge per ordered node pair, a new relation for an
existing ordered pair overwrites the stored relation label, and the file that
first uses and then declares the same-named namespace ends with the single
edge labelled CONTAINS_NAMESPACE. -/
theorem c6_simple_digraph (g : Graph) (es : List (String × String × String))
    (u v r : String) (h : (edgePairs g.edges).Nodup) :
    (edgePairs (addEdges g es).edges).Nodup ∧
    lookupEdge (addEdge g u v r).edges u v = some r ∧
    (analyze_codebase jd0 [(("a.cs"), usingNsContent)] initSt).graph.edges =
      [(("File: a.cs"), ("Namespace: A.B"), ("CONTAINS_NAMESPACE"))] := by
  refine ⟨addEdges_nodup es g h, ?_, by decide⟩
  rw [addEdge_edges]
  exact lookupEdge_updE _ _ _ _

/-- C6 witness: the theorem applied at the empty graph with two additions on
one ordered pair. -/
theorem c6_witness :
    (edgePairs (addEdges emptyGraph
        [(("a"), ("b"), ("R")), (("a"), ("b"), ("S"))]).edges).Nodup ∧
    lookupEdge (addEdge emptyGraph ("a") ("b") ("R")).edges ("a") ("b") = some ("R") ∧
    (analyze_codebase jd0 [(("a.cs"), usingNsContent)] initSt).graph.edges =
      [(("File: a.cs"), ("Namespace: A.B"), ("CONTAINS_NAMESPACE"))] :=
  c6_simple_digraph emptyGraph [(("a"), ("b"), ("R")), (("a"), ("b"), ("S"))]
    ("a") ("b") ("R") (by decide)

/-- C7: running the pipeline twice on identical input produces the same node
set and the same edge set as running it once, because every unit's path is
recorded in the analyzed-file set on first processing and both per-file
processors are guarded no-ops on already analyzed paths. -/
theorem c7_extraction_idempotent (jd : String → Option (List (String × String)))
    (units : List (String × String)) :
    (analyze_codebase jd units (analyze_codebase jd units initSt)).graph.nodes =
      (analyze_codebase jd units initSt).graph.nodes ∧
    (analyze_codebase jd units (analyze_codebase jd units initSt)).graph.edges =
      (analyze_codebase jd units initSt).graph.edges := by
  have h : analyze_codebase jd units (analyze_codebase jd units initSt) =
      analyze_codebase jd units initSt :=
    analyze_stable jd units _ (fun u hu => analyze_done jd units initSt u hu)
  exact ⟨by rw [h], by rw [h]⟩

/-- C9 counterexample: the file node created for an analyzed source file
carries kind and path attributes but no name attribute, so not every node
kind carries a name. -/
theorem c9_counterexample :
    (analyze_codebase jd0 [(("a.cs"), (""))] initSt).graph.nodes.map
        (fun p => (p.1, p.2.type_, p.2.name, p.2.path)) =
      [(("File: a.cs"), some ("file"), (none : Option String), some ("a.cs"))] := by
  decide

/-- C9: corrected form.  Every node present after extraction carries a kind
attribute; file and dependency-file nodes carry a path attribute instead of a
name, and nodes of every other kind carry a name attribute. -/
theorem c9_nodes_well_formed (jd : String → Option (List (String × String)))
    (units : List (String × String)) (k : String) (a : NodeAttrs)
    (h : (k, a) ∈ (analyze_codebase jd units initSt).graph.nodes) : okAttrs a :=
  (analyze_codebase_good jd units initSt initSt_good).1 (k, a) h

/-- C9 witness: the corrected theorem applied at the file node of a concrete
run. -/
theorem c9_witness :
    ((("File: a.cs"), ({ type_ := some ("file"), path := some ("a.cs") } : NodeAttrs)) ∈
        (analyze_codebase jd0 [(("a.cs"), (""))] initSt).graph.nodes) ∧
    okAttrs { type_ := some ("file"), path := some ("a.cs") } :=
  ⟨by decide, c9_nodes_well_formed jd0 [(("a.cs"), (""))] ("File: a.cs")
    { type_ := some ("file"), path := some ("a.cs") } (by decide)⟩

/-- C10: after any extraction run from the initial state, the
method-parameters mapping and the method-returns mapping have exactly the
same key list, since both recognizers that write one always write the other
for the same method node key. -/
theorem c10_params_returns_same_keys (jd : String → Option (List (String × String)))
    (units : List (String × String)) :
    keysOf (analyze_codebase jd units initSt).method_params =
      keysOf (analyze_codebase jd units initSt).method_returns :=
  (analyze_codebase_good jd units initSt initSt_good).2


end CntxtCS
